import Mathlib

/-!
Verification development for the `bingnews-cli` program
(`src/bingnews-cli/bingnews.py`), a command-line client that queries a
news-search web API, normalizes the returned JSON records and renders them
as a table.

The Python functions are shallowly embedded as Lean functions:

* JSON values become the inductive type `Json`; Python dictionaries are
  association lists with Python's insertion-order update semantics
  (`pySet`), and Python runtime errors (`KeyError`, `IndexError`,
  `TypeError`, `AssertionError`) become the `Except PyErr` monad.
* `textwrap.wrap` (called with default options) is embedded as `pyWrap`,
  a faithful model of CPython's greedy `_wrap_chunks` algorithm with
  `break_long_words = True`, `drop_whitespace = True` and
  `break_on_hyphens = True`: the text is tab-expanded (`expandtabs`,
  8-column tab stops), whitespace-munged, and split by a model of the
  `wordsep_re` tokenizer (whitespace runs, em-dashes between words, and
  hyphenated-compound breaks, for ASCII text) before the greedy fill.
* The URL-shortening service (`pyshorteners`) and the HTTP layer
  (`requests`) are external collaborators and are passed in as oracle
  functions (`shorten : String → String`, `http : String → Nat × Json`).
* Printing is modelled by returning the data that is printed: the list of
  table rows handed to `tabulate` (one grid row per entry) together with
  the optional trailing estimated-matches line.
-/

namespace BingNews

/-- Python runtime errors surfaced by the embedded functions. -/
inductive PyErr where
  | keyError (k : String)
  | indexError
  | typeError
  | assertionError
deriving DecidableEq

/-- JSON values, the data handled by the program. -/
inductive Json where
  | null
  | bool (b : Bool)
  | num (n : Int)
  | str (s : String)
  | arr (elts : List Json)
  | obj (fields : List (String × Json))

/-- Lookup in a Python dictionary modelled as an association list
(first binding wins; Python dictionaries have unique keys). -/
def jLookup : List (String × Json) → String → Option Json
  | [], _ => none
  | kv :: rest, k => if kv.fst = k then some kv.snd else jLookup rest k

/-- Python dictionary assignment `d[k] = v`: an existing key keeps its
position and is overwritten, a new key is appended at the end. -/
def pySet : List (String × Json) → String → Json → List (String × Json)
  | [], k, v => [(k, v)]
  | kv :: rest, k, v => if kv.fst = k then (k, v) :: rest else kv :: pySet rest k v

/-- Key lookup on a JSON value; `none` when the value is not an object. -/
def jGet (j : Json) (k : String) : Option Json :=
  match j with
  | .obj kvs => jLookup kvs k
  | _ => none

/-- Python's `k in d` membership test on a dictionary.  (Python's `in` on
lists and strings means element membership and substring search; the
program only ever applies it to parsed JSON objects, so those cases are
modelled as `false`.) -/
def hasKey (j : Json) (k : String) : Bool :=
  (jGet j k).isSome

/-- Python subscript `d[k]`: `KeyError` when the key is missing,
`TypeError` when the value is not a dictionary. -/
def getKey (j : Json) (k : String) : Except PyErr Json :=
  match j with
  | .obj kvs =>
    match jLookup kvs k with
    | some v => .ok v
    | none => .error (.keyError k)
  | _ => .error .typeError

/-- Python subscript `xs[0]` on a list: `IndexError` when the list is
empty, `TypeError` when the value is not a list. -/
def getIndex0 (j : Json) : Except PyErr Json :=
  match j with
  | .arr [] => .error .indexError
  | .arr (x :: _) => .ok x
  | _ => .error .typeError

/-- Python dictionary assignment lifted to JSON values.  The program only
assigns into values already known to be dictionaries, so the non-object
case is the identity. -/
def objSet (j : Json) (k : String) (v : Json) : Json :=
  match j with
  | .obj kvs => .obj (pySet kvs k v)
  | other => other

/-- Python `str()` as used by f-string interpolation.  Strings, numbers,
booleans and `None` follow Python exactly; the rendering of nested
containers (never produced by the news API for the interpolated provider
fields) is abbreviated. -/
def pyStr : Json → String
  | .str s => s
  | .num n => toString n
  | .bool true => "True"
  | .bool false => "False"
  | .null => "None"
  | .arr _ => "[array]"
  | .obj _ => "[object]"

/-- Coerce a JSON value to the string expected by `textwrap.wrap` and by
the URL shortener; Python raises (an `AttributeError`/`TypeError`-style
fault) on non-string input, modelled uniformly as `typeError`. -/
def asStr : Json → Except PyErr String
  | .str s => .ok s
  | _ => .error .typeError

/-- Coerce a JSON value to the list iterated by `for item in articles`.
Python would iterate the keys of a dictionary or the characters of a
string; the API's `value` field is always a list, and non-list values are
modelled as `typeError`. -/
def asArr : Json → Except PyErr (List Json)
  | .arr xs => .ok xs
  | _ => .error .typeError

/-! ### The model of `textwrap.wrap` -/

/-- The whitespace characters of CPython's `string.whitespace` as used by
`textwrap` (`\t`, `\n`, `\x0b`, `\x0c`, `\r`, space). -/
def isPyWs (c : Char) : Bool :=
  c == ' ' || c == '\t' || c == '\n' || c == '\x0b' || c == '\x0c' || c == '\r'

/-- The `replace_whitespace` munging step: every whitespace character
becomes a space. -/
def mungeChar (c : Char) : Char :=
  if isPyWs c then ' ' else c

/-- Python's `str.expandtabs(8)`: each tab becomes spaces up to the next
8-column tab stop; the column count is reset after a newline or a
carriage return and advanced by one for every other character. -/
def expandTabs (col : Nat) : List Char → List Char
  | [] => []
  | c :: cs =>
    if c == '\t' then
      List.replicate (8 - col % 8) ' ' ++ expandTabs (col + (8 - col % 8)) cs
    else if c == '\n' || c == '\r' then c :: expandTabs 0 cs
    else c :: expandTabs (col + 1) cs

/-- Whitespace munging of a whole string (textwrap's `_munge_whitespace`:
`expandtabs` followed by `replace_whitespace`). -/
def munge (s : String) : String :=
  ⟨(expandTabs 0 s.data).map mungeChar⟩

/-- Splitting a munged text into maximal runs of spaces and maximal runs
of non-space characters, in order (`cur` is the current run, reversed).
This is what textwrap's `wordsep_re` tokenizer produces on text without
hyphens; `splitChunks` below is the full tokenizer. -/
def chunksAux : List Char → List Char → List (List Char)
  | cur, [] =>
    match cur with
    | [] => []
    | _ => [cur.reverse]
  | cur, c :: cs =>
    match cur with
    | [] => chunksAux [c] cs
    | d :: _ =>
      if (d == ' ') == (c == ' ') then chunksAux (c :: cur) cs
      else cur.reverse :: chunksAux [c] cs

/-- The whitespace-run chunks of a munged character list. -/
def chunksOf (cs : List Char) : List (List Char) :=
  chunksAux [] cs

/-- The letter class of textwrap's `wordsep_re`: a word character that
is not a digit, i.e. ASCII letters and the underscore (the strings
handled here are ASCII). -/
def isLetter (c : Char) : Bool :=
  c.isAlpha || c == '_'

/-- The `\w` word class of the regex (ASCII). -/
def isWordCh (c : Char) : Bool :=
  c.isAlphanum || c == '_'

/-- The `word_punct` class of the regex. -/
def isWp (c : Char) : Bool :=
  isWordCh c || c == '!' || c == '"' || c == '\x27' || c == '&' || c == '.'
    || c == ',' || c == '?'

/-- The lookahead of the hyphenated-word rule: a letter, an optional
hyphen, and a letter. -/
def ltOptHyLt : List Char → Bool
  | c1 :: c2 :: rest =>
    isLetter c1 && (isLetter c2 ||
      (c2 == '-' && (match rest with | c3 :: _ => isLetter c3 | [] => false)))
  | _ => false

/-- The lookbehind of the hyphenated-word rule, over the characters
already scanned (most recent first): a hyphen preceded by two letters or
by letter-hyphen-letter. -/
def hyLookbehind : List Char → Bool
  | a :: x :: y :: rest =>
    a == '-' && isLetter x && (isLetter y ||
      (y == '-' && (match rest with | z :: _ => isLetter z | [] => false)))
  | _ => false

/-- The hyphenated-word break of `wordsep_re`: the token so far (at
least two characters, the last being the hyphen just scanned) may end
here when the lookbehind and the lookahead hold. -/
def hyBreak (stack tok ahead : List Char) : Bool :=
  (match tok with | _ :: _ :: _ => true | _ => false) &&
  hyLookbehind stack && ltOptHyLt ahead

/-- The em-dash rule of `wordsep_re`: the previous character is word
punctuation and the text ahead is two or more hyphens followed by a word
character. -/
def emAhead (stack ahead : List Char) : Bool :=
  (match stack with | p :: _ => isWp p | [] => false) &&
  (match ahead with
   | a :: b :: _ =>
     a == '-' && b == '-' &&
       (match ahead.dropWhile (· == '-') with | x :: _ => isWordCh x | [] => false)
   | _ => false)

/-- The lazy scan of one word token of `wordsep_re`: extend the token
until whitespace or the end of the text, a hyphenated-word break, or an
em-dash ahead.  `stack` holds every character before the current
position (most recent first), `tok` the token so far (reversed).
Returns the reversed token and the remaining text. -/
def wordScan (stack tok : List Char) : List Char → List Char × List Char
  | [] => (tok, [])
  | c :: cs =>
    if c == ' ' then (tok, c :: cs)
    else if hyBreak stack tok (c :: cs) then (tok, c :: cs)
    else if emAhead stack (c :: cs) then (tok, c :: cs)
    else wordScan (c :: stack) (c :: tok) cs

/-- The scan of the munged text into `wordsep_re` tokens: whitespace
runs, em-dash runs between words, and (possibly hyphen-broken) words.
`stack` holds every character already scanned, most recent first; `fuel`
bounds the number of tokens. -/
def tokScan : Nat → List Char → List Char → List (List Char)
  | 0, _, _ => []
  | _ + 1, _, [] => []
  | fuel + 1, stack, c :: cs =>
    if c == ' ' then
      (c :: cs.takeWhile (· == ' ')) ::
        tokScan fuel ((c :: cs.takeWhile (· == ' ')).reverse ++ stack)
          (cs.dropWhile (· == ' '))
    else if emAhead stack (c :: cs) then
      (c :: cs.takeWhile (· == '-')) ::
        tokScan fuel ((c :: cs.takeWhile (· == '-')).reverse ++ stack)
          (cs.dropWhile (· == '-'))
    else
      (wordScan (c :: stack) [c] cs).1.reverse ::
        tokScan fuel ((wordScan (c :: stack) [c] cs).1 ++ stack)
          (wordScan (c :: stack) [c] cs).2

/-- The chunks of a munged character list per textwrap's `wordsep_re`
(with `break_on_hyphens = True`, the default). -/
def splitChunks (cs : List Char) : List (List Char) :=
  tokScan (cs.length + 1) [] cs

/-- A chunk consisting of whitespace only (`chunk.strip() == ''`). -/
def chunkIsWs (c : List Char) : Bool :=
  c.all (· == ' ')

/-- Total number of characters in a list of chunks. -/
def sumLen (cs : List (List Char)) : Nat :=
  (cs.map List.length).sum

/-- The inner greedy loop of `_wrap_chunks`: move chunks onto the current
line while the line stays within `width`.  Returns the chunks taken and
the chunks remaining. -/
def greedyTake (width : Nat) : Nat → List (List Char) → List (List Char) × List (List Char)
  | _, [] => ([], [])
  | curLen, c :: rest =>
    if curLen + c.length ≤ width then
      match greedyTake width (curLen + c.length) rest with
      | (tk, rm) => (c :: tk, rm)
    else ([], c :: rest)

/-- Drop the final chunk of the current line when it is pure whitespace
(the `drop_whitespace` trailing deletion). -/
def dropLastIfWs : List (List Char) → List (List Char)
  | [] => []
  | [c] => if chunkIsWs c then [] else [c]
  | c :: rest => c :: dropLastIfWs rest

/-- Python's `chunk.rfind(hyphen, 0, bound)` specialised to a hyphen:
the largest index below `bound` holding a hyphen, scanning left to right
and keeping the last hit. -/
def rfindHyphenAux : List Char → Nat → Option Nat → Option Nat
  | [], _, acc => acc
  | c :: cs, i, acc => rfindHyphenAux cs (i + 1) (if c == '-' then some i else acc)

def rfindHyphen (d : List Char) (bound : Nat) : Option Nat :=
  rfindHyphenAux (d.take bound) 0 none

/-- textwrap's `_handle_long_word` with the default `break_long_words`
and `break_on_hyphens`: when the head chunk does not fit the width, move
its first `hyphenEnd` characters onto the current line and keep the
remainder at the head of the chunk list. -/
def handleLong (width : Nat) (cur : List (List Char)) :
    List (List Char) → List (List Char) × List (List Char)
  | [] => (cur, [])
  | d :: ds =>
    if width < d.length then
      (cur ++ [d.take (hyphenEnd width (sumLen cur) d)],
       d.drop (hyphenEnd width (sumLen cur) d) :: ds)
    else (cur, d :: ds)
where
  /-- The `space_left` value of `_handle_long_word`: the number of
  characters of the over-long chunk moved onto the current line. -/
  longEnd (width curLen : Nat) : Nat :=
    if width < 1 then 1 else width - curLen
  /-- The actual split point of `_handle_long_word` with the default
  `break_on_hyphens`: break after the last hyphen before `space_left`
  when that hyphen is preceded by some non-hyphen character. -/
  hyphenEnd (width curLen : Nat) (d : List Char) : Nat :=
    if longEnd width curLen < d.length then
      match rfindHyphen d (longEnd width curLen) with
      | some i =>
        if 0 < i ∧ (d.take i).any (fun c => !(c == '-')) = true then i + 1
        else longEnd width curLen
      | none => longEnd width curLen
    else longEnd width curLen

/-- The body of one `_wrap_chunks` iteration after the leading-whitespace
drop: fill greedily, handle an over-long head chunk, drop trailing
whitespace and emit the non-empty line. -/
def stepCore (width : Nat) (chunks1 acc : List (List Char)) :
    List (List Char) × List (List Char) :=
  ((handleLong width (greedyTake width 0 chunks1).1 (greedyTake width 0 chunks1).2).2,
   if (dropLastIfWs (handleLong width (greedyTake width 0 chunks1).1
        (greedyTake width 0 chunks1).2).1).isEmpty
   then acc
   else (dropLastIfWs (handleLong width (greedyTake width 0 chunks1).1
          (greedyTake width 0 chunks1).2).1).flatten :: acc)

/-- One iteration of the outer loop of `_wrap_chunks`: drop a leading
whitespace chunk (except on the very first line), then run `stepCore`.
Returns the remaining chunks and the updated (reversed) accumulated
lines. -/
def wrapStep (width : Nat) (c : List Char) (rest acc : List (List Char)) :
    List (List Char) × List (List Char) :=
  stepCore width (if chunkIsWs c && !acc.isEmpty then rest else c :: rest) acc

/-- The outer loop of `_wrap_chunks`, iterating `wrapStep`.  `fuel` is a
structural-recursion bound; `pyWrap` passes enough fuel for the loop to
run to completion. -/
def wrapLoop (width : Nat) : Nat → List (List Char) → List (List Char) → List (List Char)
  | 0, _, acc => acc.reverse
  | _ + 1, [], acc => acc.reverse
  | fuel + 1, c :: rest, acc =>
    wrapLoop width fuel (wrapStep width c rest acc).1 (wrapStep width c rest acc).2

/-- `textwrap.wrap` on a munged character list. -/
def pyWrapL (width : Nat) (cs : List Char) : List (List Char) :=
  wrapLoop width (sumLen (splitChunks cs) + (splitChunks cs).length + 1)
    (splitChunks cs) []

/-- The model of `textwrap.wrap(s, width)` with default options. -/
def pyWrap (width : Nat) (s : String) : List String :=
  (pyWrapL width (munge s).data).map String.mk

/-- Python's `"\n".join(lines)`. -/
def joinNl : List String → String
  | [] => ""
  | [l] => l
  | l :: rest => l ++ "\n" ++ joinNl rest

/-- The table-cell text `"\n".join(textwrap.wrap(s, width))`. -/
def joinWrap (s : String) (width : Nat) : String :=
  joinNl (pyWrap width s)

/-- Whitespace-delimited word extraction on a munged character list
(`cur` is the current word, reversed). -/
def wordsAux : List Char → List Char → List (List Char)
  | cur, [] =>
    match cur with
    | [] => []
    | _ => [cur.reverse]
  | cur, c :: cs =>
    if c == ' ' then
      match cur with
      | [] => wordsAux [] cs
      | _ => cur.reverse :: wordsAux [] cs
    else wordsAux (c :: cur) cs

/-- The whitespace-delimited words of a string (whitespace munged first,
so `'\n'` also separates words). -/
def wordsOfStr (s : String) : List String :=
  (wordsAux [] (munge s).data).map String.mk

/-- A chunk with no space at all (a word chunk is space-free). -/
def noSp (c : List Char) : Bool :=
  c.all (fun ch => !(ch == ' '))

/-- A chunk made of one character class only. -/
def homogChunk (c : List Char) : Prop :=
  chunkIsWs c = true ∨ noSp c = true

/-- The word chunks of a chunk list. -/
def wordChunks (cs : List (List Char)) : List (List Char) :=
  cs.filter (fun c => !chunkIsWs c)

/-- The termination measure of the wrap loop. -/
def muChunks (cs : List (List Char)) : Nat :=
  sumLen cs + cs.length

/-- Well-formed chunk lists handed around by the wrap loop: chunks are
non-empty and homogeneous, character classes strictly alternate, and
every word chunk fits in the width. -/
def okChunks (w : Nat) (cs : List (List Char)) : Prop :=
  (∀ c ∈ cs, c ≠ [] ∧ homogChunk c) ∧
  List.Chain' (fun a b => chunkIsWs a ≠ chunkIsWs b) cs ∧
  (∀ c ∈ cs, chunkIsWs c = false → c.length ≤ w)

/-- `"\n".join` at the character-list level. -/
def nlJoinL : List (List Char) → List Char
  | [] => []
  | [l] => l
  | l :: rest => l ++ '\n' :: nlJoinL rest

/-- Joining lines with a single space between them. -/
def spJoinL : List (List Char) → List Char
  | [] => []
  | [l] => l
  | l :: rest => l ++ ' ' :: spJoinL rest

/-- The words of the accumulated (reversed) lines, in emission order. -/
def wAcc (acc : List (List Char)) : List (List Char) :=
  (acc.reverse.map (fun l => wordsAux [] l)).flatten

/-! ### The response-normalization pipeline -/

/-- The `source = article_dictionary["image"]["provider"][0]` access. -/
def providerSource (a : Json) : Except PyErr Json := do
  let img ← getKey a "image"
  let prov ← getKey img "provider"
  getIndex0 prov

/-- The f-string `f"Provided by {source['name']}, an {source['_type']}."`. -/
def providerDescription (sname stype : Json) : String :=
  "Provided by " ++ pyStr sname ++ ", an " ++ pyStr stype ++ "."

/-- `clean_trending_article_dictionary`: read
`article_dictionary["image"]["provider"][0]`, then copy `name` to
`title`, copy `webSearchUrl` to `url`, and synthesize `description` from
the provider entry.  The Python function mutates its argument in place
and returns it; the model returns the updated dictionary. -/
def clean_trending_article_dictionary (a : Json) : Except PyErr Json := do
  let source ← providerSource a
  let nm ← getKey a "name"
  let a1 := objSet a "title" nm
  let wsu ← getKey a1 "webSearchUrl"
  let a2 := objSet a1 "url" wsu
  let sname ← getKey source "name"
  let stype ← getKey source "_type"
  pure (objSet a2 "description" (.str (providerDescription sname stype)))

/-- The record-classification test of `clean_bing_article_list`:
`"name" in item and "webSearchUrl" in item`. -/
def isTrending (item : Json) : Bool :=
  hasKey item "name" && hasKey item "webSearchUrl"

/-- One output row of the printed table, with the three column headers
used as field names. -/
structure Row where
  Title : String
  Description : String
  URL : String
deriving DecidableEq

/-- Construction of the per-article output dictionary
`{"Title": ..., "Description": ..., "URL": ...}`: the title is wrapped at
width 40, the description at width 60, and the URL goes through the
shortening service `shorten`. -/
def make_table_row (shorten : String → String) (item : Json) : Except PyErr Row := do
  let nm ← getKey item "name"
  let nmS ← asStr nm
  let ds ← getKey item "description"
  let dsS ← asStr ds
  let ur ← getKey item "url"
  let urS ← asStr ur
  pure ⟨joinWrap nmS 40, joinWrap dsS 60, shorten urS⟩

/-- One iteration of the loop body of `clean_bing_article_list`. -/
def processItem (shorten : String → String) (item : Json) : Except PyErr Row := do
  let item2 ← if isTrending item then clean_trending_article_dictionary item else pure item
  make_table_row shorten item2

/-- `clean_bing_article_list`: process the articles in order; the first
failing article aborts the whole computation. -/
def clean_bing_article_list (shorten : String → String) : List Json → Except PyErr (List Row)
  | [] => .ok []
  | item :: rest => do
    let row ← processItem shorten item
    let rows ← clean_bing_article_list shorten rest
    pure (row :: rows)

/-- What `print_bing_results` prints: the rows handed to `tabulate`
(which renders exactly one grid row per entry, in order) and, when
present, the value shown on the trailing `... estimated matches.` line. -/
structure RenderOutput where
  rows : List Row
  totalEstimatedMatches : Option Json

/-- `print_bing_results`: assert that the response has a `value` key,
normalize the article list, and print the table plus the optional
estimated-matches line.  A failure anywhere produces no output at all. -/
def print_bing_results (shorten : String → String) (resp : Json) : Except PyErr RenderOutput := do
  if hasKey resp "value" then
    let articlesJ ← getKey resp "value"
    let articles ← asArr articlesJ
    let rows ← clean_bing_article_list shorten articles
    pure ⟨rows, jGet resp "totalEstimatedMatches"⟩
  else
    .error .assertionError

/-! ### Query dispatch -/

/-- The two environment variables read by `search_and_output_bing`. -/
structure Env where
  key : Option String
  endpoint : Option String

/-- The observable outcome of one dispatch, after the `try`/`except`:
either an uncaught exception escapes (`fatal`), or the caught
`HTTPError` is printed in red with no table output and the process goes
on to exit 0 (`httpErrorPrinted`), or the results are rendered. -/
inductive DispatchResult where
  | fatal (e : PyErr)
  | httpErrorPrinted (status : Nat) (url : String)
  | rendered (out : RenderOutput)

/-- A dispatch outcome together with the URL of the HTTP GET that was
issued, `none` when execution stopped before any network request. -/
structure DispatchOutcome where
  requestUrl : Option String
  result : DispatchResult

/-- `requests.get`'s merging of the `params` argument into the URL
(percent-encoding is not modelled; the claims only involve an empty
`params`, which leaves the URL unchanged, exactly as in `requests`). -/
def addParams (url : String) (ps : List (String × String)) : String :=
  match ps with
  | [] => url
  | _ =>
    url ++ (if url.data.contains '?' then "&" else "?")
        ++ joinAmp (ps.map (fun p => p.fst ++ "=" ++ p.snd))
where
  joinAmp : List String → String
    | [] => ""
    | [x] => x
    | x :: rest => x ++ "&" ++ joinAmp rest

/-- `search_and_output_bing`: assert both environment variables, build
`{endpoint}v7.0/news{query_string}`, issue the GET through the `http`
oracle (which returns the status code and parsed JSON body), let
`raise_for_status` raise on 4xx/5xx — caught and printed — and otherwise
render the body.  Exceptions from rendering are not caught (`except`
only catches `requests.exceptions.HTTPError`). -/
def search_and_output_bing (shorten : String → String) (env : Env)
    (http : String → Nat × Json) (query_string : String)
    (params : List (String × String)) : DispatchOutcome :=
  match env.key, env.endpoint with
  | none, _ => ⟨none, .fatal .assertionError⟩
  | some _, none => ⟨none, .fatal .assertionError⟩
  | some _, some ep =>
    let url := addParams (ep ++ "v7.0/news" ++ query_string) params
    let resp := http url
    let res :=
      if 400 ≤ resp.fst ∧ resp.fst ≤ 599 then
        DispatchResult.httpErrorPrinted resp.fst url
      else
        match print_bing_results shorten resp.snd with
        | .ok out => .rendered out
        | .error e => .fatal e
    ⟨some url, res⟩

/-- The query string built by the `cat` subcommand:
`f"?mkt={market}&category={category}"`. -/
def category_query_string (market category : String) : String :=
  "?mkt=" ++ market ++ "&category=" ++ category

/-- `search_bing_by_category`: dispatch the category query with no
`params` argument (so `params` defaults to the empty dictionary). -/
def search_bing_by_category (shorten : String → String) (env : Env)
    (http : String → Nat × Json) (category market : String) : DispatchOutcome :=
  search_and_output_bing shorten env http (category_query_string market category) []

/-! ### Valid article records and their expected rows -/

/-- The lookup yields a string value. -/
def isStrVal : Option Json → Bool
  | some (.str _) => true
  | _ => false

/-- A standard article record per the data model: an object that is not
classified as trending, with string `name`, `description` and `url`. -/
def validStandard (a : Json) : Bool :=
  match a with
  | .obj _ =>
    !(isTrending a) && isStrVal (jGet a "name") && isStrVal (jGet a "description")
      && isStrVal (jGet a "url")
  | _ => false

/-- A trending-topic record per the data model: an object with string
`name` and `webSearchUrl` and a non-empty `image.provider` list whose
first entry carries `name` and `_type`. -/
def validTrending (a : Json) : Bool :=
  match a with
  | .obj _ =>
    isTrending a && isStrVal (jGet a "name") && isStrVal (jGet a "webSearchUrl")
      && (match providerSource a with
          | .ok src => (hasKey src "name") && (hasKey src "_type")
          | .error _ => false)
  | _ => false

/-- An article record of either shape. -/
def validArticle (a : Json) : Bool :=
  validStandard a || validTrending a

/-- The string content of a lookup, defaulting to the empty string. -/
def strOfD (o : Option Json) : String :=
  match o with
  | some (.str s) => s
  | _ => ""

/-- The row that the pipeline produces for a valid article record. -/
def articleRow (shorten : String → String) (a : Json) : Row :=
  if isTrending a then
    let src := match providerSource a with
      | .ok s => s
      | .error _ => Json.null
    let pn := match getKey src "name" with
      | .ok v => pyStr v
      | .error _ => ""
    let pt := match getKey src "_type" with
      | .ok v => pyStr v
      | .error _ => ""
    ⟨joinWrap (strOfD (jGet a "name")) 40,
     joinWrap (providerDescription' pn pt) 60,
     shorten (strOfD (jGet a "webSearchUrl"))⟩
  else
    ⟨joinWrap (strOfD (jGet a "name")) 40,
     joinWrap (strOfD (jGet a "description")) 60,
     shorten (strOfD (jGet a "url"))⟩
where
  providerDescription' (pn pt : String) : String :=
    "Provided by " ++ pn ++ ", an " ++ pt ++ "."

/-! ### Concrete inputs used to instantiate the theorems -/

/-- A standard article record. -/
def exStd : Json :=
  .obj [("name", .str "Standard story"), ("description", .str "A tale."),
        ("url", .str "http://example.com/a")]

/-- A trending-topic record with a Reuters provider. -/
def exTrend : Json :=
  .obj [("name", .str "Trend"), ("webSearchUrl", .str "http://bing.com/t"),
        ("image", .obj [("provider",
          .arr [.obj [("name", .str "Reuters"), ("_type", .str "Organization")]])])]

/-- A trending-topic record whose `image.provider` list is empty. -/
def exBadTrend : Json :=
  .obj [("name", .str "Bad"), ("webSearchUrl", .str "http://bing.com/b"),
        ("image", .obj [("provider", .arr [])])]

/-- A trending-topic record that already carries `url` and `description`
values before normalization. -/
def exOverwrite : Json :=
  .obj [("name", .str "N"), ("url", .str "http://old/"),
        ("description", .str "old description"),
        ("webSearchUrl", .str "http://new/"),
        ("image", .obj [("provider",
          .arr [.obj [("name", .str "P"), ("_type", .str "T")]])])]

/-- A single 61-character word, longer than the description wrap width. -/
def exLongWord : String :=
  String.mk (List.replicate 61 'a')

/-- A standard record whose description is one 61-character word. -/
def exLongWordItem : Json :=
  .obj [("name", .str "t"), ("description", .str exLongWord), ("url", .str "u")]

/-- A 69-character description made of fourteen 4-character words. -/
def exLongDesc : String :=
  "aaaa aaaa aaaa aaaa aaaa aaaa aaaa aaaa aaaa aaaa aaaa aaaa aaaa aaaa"

/-- A standard record with a description longer than 60 characters. -/
def exLongDescItem : Json :=
  .obj [("name", .str "Long title"), ("description", .str exLongDesc),
        ("url", .str "http://example.com/long")]

/-- An 82-character description whose words all fit a 60-wide line but
whose second word carries an internal hyphen. -/
def exHyphenDesc : String :=
  String.mk (List.replicate 30 'a' ++ (' ' :: List.replicate 25 'b')
    ++ ('-' :: List.replicate 25 'c'))

/-- An environment with both variables set. -/
def exEnv : Env :=
  ⟨some "secret-key", some "https://api.example.com/"⟩

/-- An HTTP oracle answering every request with status 304 (not an error
for `raise_for_status`) and a one-article body. -/
def http304 : String → Nat × Json :=
  fun _ => (304, Json.obj [("value", Json.arr [exStd])])

/-- An HTTP oracle answering every request with status 404. -/
def http404 : String → Nat × Json :=
  fun _ => (404, Json.null)

/-- The value stored under key `k` after a record has been normalized by
`clean_trending_article_dictionary` (used to state closed instances). -/
def cleanedField (a : Json) (k : String) : Except PyErr (Option Json) :=
  (clean_trending_article_dictionary a).map (fun r => jGet r k)

/-! ## Basic lemmas about the embedded dictionary operations -/

@[simp] theorem ok_bind {α β : Type} (x : α) (f : α → Except PyErr β) :
    (Except.ok x >>= f) = f x := rfl

@[simp] theorem error_bind {α β : Type} (e : PyErr) (f : α → Except PyErr β) :
    ((Except.error e : Except PyErr α) >>= f) = Except.error e := rfl

@[simp] theorem pure_eq_ok {α : Type} (x : α) :
    (pure x : Except PyErr α) = Except.ok x := rfl

theorem jLookup_pySet_self (kvs : List (String × Json)) (k : String) (v : Json) :
    jLookup (pySet kvs k v) k = some v := by
  induction kvs with
  | nil => simp [pySet, jLookup]
  | cons kv rest ih =>
    by_cases h : kv.fst = k
    · simp [pySet, h, jLookup]
    · simp [pySet, h, jLookup, ih]

theorem jLookup_pySet_ne (kvs : List (String × Json)) (k k' : String) (v : Json)
    (h : k' ≠ k) : jLookup (pySet kvs k v) k' = jLookup kvs k' := by
  have h' : ¬ (k = k') := fun he => h he.symm
  induction kvs with
  | nil => simp [pySet, jLookup, h']
  | cons kv rest ih =>
    by_cases hk : kv.fst = k
    · simp [pySet, hk, jLookup, h']
    · simp [pySet, hk, jLookup, ih]

theorem jGet_obj (kvs : List (String × Json)) (k : String) :
    jGet (Json.obj kvs) k = jLookup kvs k := rfl

theorem getKey_eq_of_jGet {a : Json} {k : String} {v : Json}
    (h : jGet a k = some v) : getKey a k = .ok v := by
  cases a <;> simp [jGet] at h
  simp [getKey, h]

theorem jGet_objSet_self (kvs : List (String × Json)) (k : String) (v : Json) :
    jGet (objSet (Json.obj kvs) k v) k = some v := by
  simp [objSet, jGet, jLookup_pySet_self]

theorem jGet_objSet_ne (kvs : List (String × Json)) (k k' : String) (v : Json)
    (h : k' ≠ k) : jGet (objSet (Json.obj kvs) k v) k' = jLookup kvs k' := by
  simp [objSet, jGet, jLookup_pySet_ne _ _ _ _ h]

theorem jLookup_clean_chain (kvs : List (String × Json)) (nm wsu dsc : Json)
    (k : String) (h1 : k ≠ "title") (h2 : k ≠ "url") (h3 : k ≠ "description") :
    jLookup (pySet (pySet (pySet kvs "title" nm) "url" wsu) "description" dsc) k =
      jLookup kvs k := by
  rw [jLookup_pySet_ne _ _ _ _ h3, jLookup_pySet_ne _ _ _ _ h2,
      jLookup_pySet_ne _ _ _ _ h1]

theorem isStrVal_eq {o : Option Json} (h : isStrVal o = true) :
    ∃ s, o = some (.str s) := by
  match o with
  | some (.str s) => exact ⟨s, rfl⟩
  | none | some .null | some (.bool _) | some (.num _) | some (.arr _) | some (.obj _) =>
    simp [isStrVal] at h

/-! ## Lemmas about the normalization pipeline -/

theorem clean_trending_eq (kvs : List (String × Json)) (src nm wsu sn st : Json)
    (hsrc : providerSource (Json.obj kvs) = .ok src)
    (hn : jLookup kvs "name" = some nm)
    (hw : jLookup kvs "webSearchUrl" = some wsu)
    (hsn : getKey src "name" = .ok sn)
    (hst : getKey src "_type" = .ok st) :
    clean_trending_article_dictionary (Json.obj kvs) =
      .ok (Json.obj (pySet (pySet (pySet kvs "title" nm) "url" wsu)
        "description" (.str (providerDescription sn st)))) := by
  have h1 : getKey (Json.obj kvs) "name" = .ok nm := getKey_eq_of_jGet hn
  have h2 : getKey (Json.obj (pySet kvs "title" nm)) "webSearchUrl" = .ok wsu := by
    apply getKey_eq_of_jGet
    show jLookup (pySet kvs "title" nm) "webSearchUrl" = some wsu
    rw [jLookup_pySet_ne _ _ _ _ (by decide)]
    exact hw
  simp only [clean_trending_article_dictionary, hsrc, ok_bind, h1, h2, hsn, hst,
    pure_eq_ok, objSet]

theorem processItem_standard (shorten : String → String) (a : Json) (nm d u : String)
    (ht : isTrending a = false)
    (hn : jGet a "name" = some (.str nm))
    (hd : jGet a "description" = some (.str d))
    (hu : jGet a "url" = some (.str u)) :
    processItem shorten a = .ok ⟨joinWrap nm 40, joinWrap d 60, shorten u⟩ := by
  simp [processItem, make_table_row, ht, getKey_eq_of_jGet hn, getKey_eq_of_jGet hd,
    getKey_eq_of_jGet hu, asStr]

theorem processItem_trending (shorten : String → String) (kvs : List (String × Json))
    (src : Json) (nm wsu : String) (sn st : Json)
    (ht : isTrending (Json.obj kvs) = true)
    (hsrc : providerSource (Json.obj kvs) = .ok src)
    (hn : jLookup kvs "name" = some (.str nm))
    (hw : jLookup kvs "webSearchUrl" = some (.str wsu))
    (hsn : getKey src "name" = .ok sn)
    (hst : getKey src "_type" = .ok st) :
    processItem shorten (Json.obj kvs) =
      .ok ⟨joinWrap nm 40, joinWrap (providerDescription sn st) 60, shorten wsu⟩ := by
  have hclean := clean_trending_eq kvs src (.str nm) (.str wsu) sn st hsrc hn hw hsn hst
  have hname : jGet (Json.obj (pySet (pySet (pySet kvs "title" (Json.str nm)) "url"
      (Json.str wsu)) "description" (Json.str (providerDescription sn st)))) "name" =
      some (.str nm) := by
    show jLookup _ "name" = _
    rw [jLookup_clean_chain _ _ _ _ _ (by decide) (by decide) (by decide)]
    exact hn
  have hdesc : jGet (Json.obj (pySet (pySet (pySet kvs "title" (Json.str nm)) "url"
      (Json.str wsu)) "description" (Json.str (providerDescription sn st)))) "description" =
      some (.str (providerDescription sn st)) := jLookup_pySet_self _ _ _
  have hurl : jGet (Json.obj (pySet (pySet (pySet kvs "title" (Json.str nm)) "url"
      (Json.str wsu)) "description" (Json.str (providerDescription sn st)))) "url" =
      some (.str wsu) := by
    show jLookup _ "url" = _
    rw [jLookup_pySet_ne _ _ _ _ (by decide)]
    exact jLookup_pySet_self _ _ _
  simp [processItem, ht, hclean, make_table_row,
    getKey_eq_of_jGet hname, getKey_eq_of_jGet hdesc, getKey_eq_of_jGet hurl, asStr]

theorem processItem_valid (shorten : String → String) (a : Json)
    (h : validArticle a = true) :
    processItem shorten a = .ok (articleRow shorten a) := by
  have h' : validStandard a = true ∨ validTrending a = true := by
    simpa [validArticle] using h
  rcases h' with hs | htr
  · match a, hs with
    | Json.obj kvs, hs =>
      simp only [validStandard, Bool.and_eq_true, Bool.not_eq_eq_eq_not, Bool.not_true] at hs
      obtain ⟨⟨⟨ht, hn0⟩, hd0⟩, hu0⟩ := hs
      obtain ⟨nm, hn⟩ := isStrVal_eq hn0
      obtain ⟨d, hd⟩ := isStrVal_eq hd0
      obtain ⟨u, hu⟩ := isStrVal_eq hu0
      rw [processItem_standard shorten _ nm d u ht hn hd hu]
      simp [articleRow, ht, strOfD, hn, hd, hu]
  · match a, htr with
    | Json.obj kvs, htr =>
      simp only [validTrending, Bool.and_eq_true] at htr
      obtain ⟨⟨⟨ht, hn0⟩, hw0⟩, hmatch⟩ := htr
      obtain ⟨nm, hn⟩ := isStrVal_eq hn0
      obtain ⟨wsu, hw⟩ := isStrVal_eq hw0
      cases hps : providerSource (Json.obj kvs) with
      | error e => rw [hps] at hmatch; simp at hmatch
      | ok src =>
        rw [hps] at hmatch
        simp only [Bool.and_eq_true, hasKey] at hmatch
        obtain ⟨hsn0, hst0⟩ := hmatch
        obtain ⟨sn, hsn⟩ := Option.isSome_iff_exists.mp hsn0
        obtain ⟨st, hst⟩ := Option.isSome_iff_exists.mp hst0
        rw [processItem_trending shorten kvs src nm wsu sn st ht hps hn hw
          (getKey_eq_of_jGet hsn) (getKey_eq_of_jGet hst)]
        simp [articleRow, ht, hps, getKey_eq_of_jGet hsn, getKey_eq_of_jGet hst,
          articleRow.providerDescription', providerDescription, strOfD, hn, hw]

theorem clean_list_valid (shorten : String → String) (articles : List Json)
    (h : ∀ a ∈ articles, validArticle a = true) :
    clean_bing_article_list shorten articles = .ok (articles.map (articleRow shorten)) := by
  induction articles with
  | nil => rfl
  | cons a rest ih =>
    have ha := processItem_valid shorten a (h a (by simp))
    have hrest := ih (fun x hx => h x (by simp [hx]))
    simp [clean_bing_article_list, ha, hrest]

theorem clean_list_append_error (shorten : String → String) (pre rest : List Json)
    (e : PyErr) (h : clean_bing_article_list shorten rest = .error e)
    (hpre : ∀ a ∈ pre, validArticle a = true) :
    clean_bing_article_list shorten (pre ++ rest) = .error e := by
  induction pre with
  | nil => simpa using h
  | cons a l ih =>
    have ha := processItem_valid shorten a (hpre a (by simp))
    have hl := ih (fun x hx => hpre x (by simp [hx]))
    show clean_bing_article_list shorten (a :: (l ++ rest)) = .error e
    simp [clean_bing_article_list, ha, hl]

/-! ## Claim theorems -/

/-- Claim C1: for every response JSON whose `value` field is a list of
article records, `print_bing_results` emits exactly one output row per
input article, and the rows appear in the same order as the articles in
the input list (the printed rows are `articles.map (articleRow shorten)`). -/
theorem render_one_row_per_article (shorten : String → String)
    (kvs : List (String × Json)) (articles : List Json)
    (hval : jLookup kvs "value" = some (Json.arr articles))
    (hvalid : ∀ a ∈ articles, validArticle a = true) :
    print_bing_results shorten (Json.obj kvs) =
      .ok ⟨articles.map (articleRow shorten), jLookup kvs "totalEstimatedMatches"⟩ ∧
    (articles.map (articleRow shorten)).length = articles.length := by
  refine ⟨?_, by simp⟩
  have hk : hasKey (Json.obj kvs) "value" = true := by simp [hasKey, jGet, hval]
  have hv : getKey (Json.obj kvs) "value" = .ok (Json.arr articles) :=
    getKey_eq_of_jGet hval
  simp [print_bing_results, hk, hv, asArr, clean_list_valid shorten articles hvalid, jGet]

/-- Witness for C1: a two-article response (one standard, one trending)
renders to exactly those two rows in order. -/
theorem render_one_row_per_article_witness :
    print_bing_results id (Json.obj [("value", Json.arr [exStd, exTrend])]) =
      .ok ⟨[exStd, exTrend].map (articleRow id), none⟩ :=
  (render_one_row_per_article id [("value", Json.arr [exStd, exTrend])]
    [exStd, exTrend] rfl (by decide)).1

/-- Claim C2: a response object that lacks a `value` key makes
`print_bing_results` fail with the assertion error before any article is
classified, normalized or formatted, and nothing is printed. -/
theorem missing_value_fails_fast (shorten : String → String)
    (kvs : List (String × Json)) (h : jLookup kvs "value" = none) :
    print_bing_results shorten (Json.obj kvs) = .error .assertionError := by
  have hk : hasKey (Json.obj kvs) "value" = false := by simp [hasKey, jGet, h]
  simp [print_bing_results, hk]

/-- Witness for C2: a response object with no `value` key. -/
theorem missing_value_fails_fast_witness :
    print_bing_results id (Json.obj [("values", Json.str "oops")]) = .error .assertionError :=
  missing_value_fails_fast id _ rfl

/-- Claim C3: an article is classified (and normalized) as trending if
and only if it has both the `name` and the `webSearchUrl` keys; any other
record is passed to row construction unchanged; and no other field
(including `image.provider`) influences the classification — any two
records agreeing on the presence of those two keys are classified alike. -/
theorem classification_by_name_webSearchUrl (shorten : String → String) (a b : Json)
    (hn : hasKey a "name" = hasKey b "name")
    (hw : hasKey a "webSearchUrl" = hasKey b "webSearchUrl") :
    isTrending a = isTrending b ∧
    (isTrending a = true ↔ (hasKey a "name" = true ∧ hasKey a "webSearchUrl" = true)) ∧
    (isTrending a = false → processItem shorten a = make_table_row shorten a) ∧
    (isTrending a = true →
      processItem shorten a = clean_trending_article_dictionary a >>= make_table_row shorten) := by
  refine ⟨by simp [isTrending, hn, hw], by simp [isTrending], ?_, ?_⟩
  · intro h; simp [processItem, h]
  · intro h; simp [processItem, h]

/-- Witness for C3: the standard example lacks `webSearchUrl` and goes to
row construction unchanged. -/
theorem classification_by_name_webSearchUrl_witness :
    processItem id exStd = make_table_row id exStd :=
  (classification_by_name_webSearchUrl id exStd exStd rfl rfl).2.2.1 rfl

/-- Claim C4: a trending record with a non-empty `image.provider` list is
normalized so that `url` is the `webSearchUrl` value and `description` is
exactly the string built from the first provider entry. -/
theorem trending_description_from_provider (a img src : Json) (rest : List Json)
    (pn pt : String) (nm wsu : Json) (kvs : List (String × Json))
    (ha : a = Json.obj kvs)
    (himg : getKey a "image" = .ok img)
    (hprov : getKey img "provider" = .ok (Json.arr (src :: rest)))
    (hsn : getKey src "name" = .ok (.str pn))
    (hst : getKey src "_type" = .ok (.str pt))
    (hnm : jLookup kvs "name" = some nm)
    (hwsu : jLookup kvs "webSearchUrl" = some wsu) :
    ∃ r, clean_trending_article_dictionary a = .ok r ∧
      jGet r "url" = some wsu ∧
      jGet r "description" = some (.str ("Provided by " ++ pn ++ ", an " ++ pt ++ ".")) := by
  subst ha
  have hsrc : providerSource (Json.obj kvs) = .ok src := by
    simp [providerSource, himg, hprov, getIndex0]
  refine ⟨_, clean_trending_eq kvs src nm wsu _ _ hsrc hnm hwsu hsn hst, ?_, ?_⟩
  · show jLookup _ "url" = _
    rw [jLookup_pySet_ne _ _ _ _ (by decide)]
    exact jLookup_pySet_self _ _ _
  · show jLookup _ "description" = _
    rw [jLookup_pySet_self]
    simp [providerDescription, pyStr]

/-- Witness for C4: the Reuters/Organization provider yields description
exactly `"Provided by Reuters, an Organization."`. -/
theorem trending_description_from_provider_witness :
    cleanedField exTrend "description" =
      .ok (some (.str "Provided by Reuters, an Organization.")) ∧
    cleanedField exTrend "url" = .ok (some (.str "http://bing.com/t")) := by
  obtain ⟨r, h1, h2, h3⟩ := trending_description_from_provider exTrend _ _ []
    "Reuters" "Organization" (.str "Trend") (.str "http://bing.com/t") _
    rfl rfl rfl rfl rfl rfl rfl
  refine ⟨?_, ?_⟩ <;> simp [cleanedField, h1, Except.map, h2, h3]

/-- Claim C5: a trending record with an empty `image.provider` list makes
normalization fail with the `IndexError`, and this single row-level
failure aborts the whole render: `print_bing_results` produces no output
at all, in particular none of the earlier articles is printed. -/
theorem empty_provider_aborts_render (shorten : String → String)
    (kvs : List (String × Json)) (pre post : List Json) (bad img : Json)
    (hval : jLookup kvs "value" = some (Json.arr (pre ++ bad :: post)))
    (hpre : ∀ a ∈ pre, validArticle a = true)
    (htr : isTrending bad = true)
    (himg : getKey bad "image" = .ok img)
    (hprov : getKey img "provider" = .ok (Json.arr [])) :
    print_bing_results shorten (Json.obj kvs) = .error .indexError := by
  have hbad : processItem shorten bad = .error .indexError := by
    have hclean : clean_trending_article_dictionary bad = .error .indexError := by
      simp [clean_trending_article_dictionary, providerSource, himg, hprov, getIndex0]
    simp [processItem, htr, hclean]
  have hlist : clean_bing_article_list shorten (pre ++ bad :: post) = .error .indexError := by
    apply clean_list_append_error shorten pre _ _ _ hpre
    simp [clean_bing_article_list, hbad]
  have hk : hasKey (Json.obj kvs) "value" = true := by simp [hasKey, jGet, hval]
  have hv : getKey (Json.obj kvs) "value" = .ok (Json.arr (pre ++ bad :: post)) :=
    getKey_eq_of_jGet hval
  simp [print_bing_results, hk, hv, asArr, hlist]

/-- Witness for C5: a response whose second article is a trending record
with an empty provider list renders nothing, not even the first (valid)
article. -/
theorem empty_provider_aborts_render_witness :
    print_bing_results id (Json.obj [("value", Json.arr [exStd, exBadTrend])]) =
      .error .indexError :=
  empty_provider_aborts_render id _ [exStd] [] exBadTrend _ rfl (by decide) rfl rfl rfl

/-- Claim C7: for every market and category the `cat` subcommand
dispatches with the query path `?mkt={m}&category={c}` appended to the
news endpoint and no additional query parameters (its `params` list is
empty, so the request URL is exactly the endpoint, the `v7.0/news` path
and that query string); for `en-US`/`Sports` the query path is exactly
`?mkt=en-US&category=Sports`. -/
theorem category_query_exact (shorten : String → String) (http : String → Nat × Json)
    (key ep m c : String) :
    category_query_string m c = "?mkt=" ++ m ++ "&category=" ++ c ∧
    category_query_string "en-US" "Sports" = "?mkt=en-US&category=Sports" ∧
    search_bing_by_category shorten ⟨some key, some ep⟩ http c m =
      search_and_output_bing shorten ⟨some key, some ep⟩ http (category_query_string m c) [] ∧
    (search_bing_by_category shorten ⟨some key, some ep⟩ http c m).requestUrl =
      some (ep ++ "v7.0/news" ++ ("?mkt=" ++ m ++ "&category=" ++ c)) := by
  refine ⟨rfl, rfl, rfl, ?_⟩
  simp [search_bing_by_category, search_and_output_bing, addParams, category_query_string]

/-- Claim C8: if either environment variable is absent, dispatch fails
with the assertion error before any network request: no URL is ever
requested. -/
theorem missing_env_no_request (shorten : String → String) (env : Env)
    (http : String → Nat × Json) (qs : String) (ps : List (String × String))
    (h : env.key = none ∨ env.endpoint = none) :
    (search_and_output_bing shorten env http qs ps).requestUrl = none ∧
    (search_and_output_bing shorten env http qs ps).result = .fatal .assertionError := by
  obtain ⟨k, e⟩ := env
  rcases h with h | h
  · simp only at h
    subst h
    exact ⟨rfl, rfl⟩
  · simp only at h
    subst h
    cases k with
    | none => exact ⟨rfl, rfl⟩
    | some s => exact ⟨rfl, rfl⟩

/-- Witness for C8: with `BING_SEARCH_KEY` unset no request is issued. -/
theorem missing_env_no_request_witness :
    (search_and_output_bing id ⟨none, some "https://api.example.com/"⟩ http404 "" []).requestUrl
      = none ∧
    (search_and_output_bing id ⟨none, some "https://api.example.com/"⟩ http404 "" []).result
      = .fatal .assertionError :=
  missing_env_no_request id ⟨none, some "https://api.example.com/"⟩ http404 "" [] (Or.inl rfl)

/-- Claim C10: trending normalization updates the input dictionary itself
(modelled functionally): the returned record is the input with `title`,
`url` and `description` set — any pre-existing `url` or `description`
value is silently overwritten, every other key is untouched — and the
added `title` key is never read: row construction is insensitive to the
`title` value, the Title cell being built from `name` for both shapes. -/
theorem trending_clean_in_place (shorten : String → String) (a img src nm wsu sn st : Json)
    (rest : List Json) (kvs : List (String × Json))
    (ha : a = Json.obj kvs)
    (himg : getKey a "image" = .ok img)
    (hprov : getKey img "provider" = .ok (Json.arr (src :: rest)))
    (hsn : getKey src "name" = .ok sn)
    (hst : getKey src "_type" = .ok st)
    (hnm : jLookup kvs "name" = some nm)
    (hwsu : jLookup kvs "webSearchUrl" = some wsu) :
    ∃ r, clean_trending_article_dictionary a = .ok r ∧
      jGet r "title" = some nm ∧
      jGet r "url" = some wsu ∧
      jGet r "description" = some (.str (providerDescription sn st)) ∧
      (∀ k, k ≠ "title" → k ≠ "url" → k ≠ "description" → jGet r k = jGet a k) ∧
      (∀ v, make_table_row shorten (objSet r "title" v) = make_table_row shorten r) := by
  subst ha
  have hsrc : providerSource (Json.obj kvs) = .ok src := by
    simp [providerSource, himg, hprov, getIndex0]
  refine ⟨_, clean_trending_eq kvs src nm wsu _ _ hsrc hnm hwsu hsn hst, ?_, ?_, ?_, ?_, ?_⟩
  · show jLookup _ "title" = _
    rw [jLookup_pySet_ne _ _ _ _ (by decide), jLookup_pySet_ne _ _ _ _ (by decide)]
    exact jLookup_pySet_self _ _ _
  · show jLookup _ "url" = _
    rw [jLookup_pySet_ne _ _ _ _ (by decide)]
    exact jLookup_pySet_self _ _ _
  · exact jLookup_pySet_self _ _ _
  · intro k h1 h2 h3
    show jLookup _ k = jLookup kvs k
    exact jLookup_clean_chain _ _ _ _ _ h1 h2 h3
  · intro v
    have e1 : getKey (objSet (Json.obj (pySet (pySet (pySet kvs "title" nm) "url" wsu)
        "description" (Json.str (providerDescription sn st)))) "title" v) "name" =
        getKey (Json.obj (pySet (pySet (pySet kvs "title" nm) "url" wsu)
        "description" (Json.str (providerDescription sn st)))) "name" := by
      simp only [objSet, getKey]
      rw [jLookup_pySet_ne _ _ _ _ (by decide)]
    have e2 : getKey (objSet (Json.obj (pySet (pySet (pySet kvs "title" nm) "url" wsu)
        "description" (Json.str (providerDescription sn st)))) "title" v) "description" =
        getKey (Json.obj (pySet (pySet (pySet kvs "title" nm) "url" wsu)
        "description" (Json.str (providerDescription sn st)))) "description" := by
      simp only [objSet, getKey]
      rw [jLookup_pySet_ne _ _ _ _ (by decide)]
    have e3 : getKey (objSet (Json.obj (pySet (pySet (pySet kvs "title" nm) "url" wsu)
        "description" (Json.str (providerDescription sn st)))) "title" v) "url" =
        getKey (Json.obj (pySet (pySet (pySet kvs "title" nm) "url" wsu)
        "description" (Json.str (providerDescription sn st)))) "url" := by
      simp only [objSet, getKey]
      rw [jLookup_pySet_ne _ _ _ _ (by decide)]
    simp only [make_table_row, e1, e2, e3]

/-- Witness for C10: on a record that already carries `url` and
`description`, normalization overwrites both and keeps `name`. -/
theorem trending_clean_in_place_witness :
    cleanedField exOverwrite "url" = .ok (some (.str "http://new/")) ∧
    cleanedField exOverwrite "description" = .ok (some (.str "Provided by P, an T.")) ∧
    cleanedField exOverwrite "name" = .ok (some (.str "N")) := by
  obtain ⟨r, h1, h2, h3, h4, h5, h6⟩ := trending_clean_in_place id exOverwrite _ _
    (.str "N") (.str "http://new/") (.str "P") (.str "T") [] _
    rfl rfl rfl rfl rfl rfl rfl
  have hn := h5 "name" (by decide) (by decide) (by decide)
  refine ⟨?_, ?_, ?_⟩ <;>
    simp [cleanedField, h1, Except.map, h2, h3, h4, hn] <;> rfl

/-- Claim C9 (amended): for every HTTP response with a 4xx or 5xx status
(the statuses `raise_for_status` raises on), dispatch catches the
`HTTPError` and reports `httpErrorPrinted`: the error message is printed,
no table is rendered, no exception escapes the command, and the process
goes on to exit 0. -/
theorem http_error_caught (shorten : String → String) (http : String → Nat × Json)
    (key ep qs : String) (ps : List (String × String))
    (h4 : 400 ≤ (http (addParams (ep ++ "v7.0/news" ++ qs) ps)).fst)
    (h5 : (http (addParams (ep ++ "v7.0/news" ++ qs) ps)).fst ≤ 599) :
    (search_and_output_bing shorten ⟨some key, some ep⟩ http qs ps).result =
      .httpErrorPrinted (http (addParams (ep ++ "v7.0/news" ++ qs) ps)).fst
        (addParams (ep ++ "v7.0/news" ++ qs) ps) := by
  simp [search_and_output_bing, h4, h5]

/-- Witness for the amended C9: a 404 answer is caught and printed as an
error with no table output. -/
theorem http_error_caught_witness :
    (search_and_output_bing id exEnv http404 "" []).result =
      .httpErrorPrinted 404 "https://api.example.com/v7.0/news" :=
  http_error_caught id http404 "secret-key" "https://api.example.com/" "" []
    (by decide) (by decide)

/-- Counterexample to C9 as stated: status 304 is a non-2xx status, but
`raise_for_status` raises only on 4xx/5xx, so nothing is caught, no error
message is printed, and the body is rendered as a table. -/
theorem non2xx_not_always_error :
    (search_and_output_bing id exEnv http304 "" []).result =
      .rendered ⟨[⟨joinWrap "Standard story" 40, joinWrap "A tale." 60,
        "http://example.com/a"⟩], none⟩ ∧
    (search_and_output_bing id exEnv http304 "" []).result ≠
      .httpErrorPrinted 304 "https://api.example.com/v7.0/news" := by
  refine ⟨rfl, ?_⟩
  intro h
  have h2 : DispatchResult.rendered ⟨[⟨joinWrap "Standard story" 40, joinWrap "A tale." 60,
      "http://example.com/a"⟩], none⟩ =
      DispatchResult.httpErrorPrinted 304 "https://api.example.com/v7.0/news" := h
  exact DispatchResult.noConfusion h2

/-! ## Lemmas about the textwrap model -/

theorem sumLen_nil : sumLen [] = 0 := rfl

theorem sumLen_cons (c : List Char) (cs : List (List Char)) :
    sumLen (c :: cs) = c.length + sumLen cs := by
  simp [sumLen]

theorem sumLen_append (a b : List (List Char)) :
    sumLen (a ++ b) = sumLen a + sumLen b := by
  simp [sumLen]

theorem flatten_length_eq_sumLen (l : List (List Char)) :
    l.flatten.length = sumLen l := by
  induction l with
  | nil => rfl
  | cons c cs ih => simp [sumLen_cons, ih]

theorem greedyTake_partition (w : Nat) (cs : List (List Char)) : ∀ (k : Nat),
    (greedyTake w k cs).1 ++ (greedyTake w k cs).2 = cs := by
  induction cs with
  | nil => intro k; rfl
  | cons c rest ih =>
    intro k
    by_cases h : k + c.length ≤ w
    · simp [greedyTake, h, ih]
    · simp [greedyTake, h]

theorem greedyTake_fits (w : Nat) (cs : List (List Char)) : ∀ (k : Nat), k ≤ w →
    k + sumLen (greedyTake w k cs).1 ≤ w := by
  induction cs with
  | nil => intro k hk; simpa [greedyTake, sumLen]
  | cons c rest ih =>
    intro k hk
    by_cases h : k + c.length ≤ w
    · have h2 := ih (k + c.length) h
      have e : (greedyTake w k (c :: rest)).1 = c :: (greedyTake w (k + c.length) rest).1 := by
        simp [greedyTake, h]
      rw [e, sumLen_cons]
      omega
    · simp [greedyTake, h, sumLen]
      omega

theorem greedyTake_stuck (w : Nat) (c : List Char) (rest : List (List Char))
    (h : (greedyTake w 0 (c :: rest)).1 = []) :
    w < c.length ∧ (greedyTake w 0 (c :: rest)).2 = c :: rest := by
  by_cases hc : c.length ≤ w
  · exfalso
    simp [greedyTake, Nat.zero_add, hc] at h
  · refine ⟨by omega, ?_⟩
    simp [greedyTake, Nat.zero_add, hc]

theorem dropLastIfWs_eq_self_or_dropLast (l : List (List Char)) :
    dropLastIfWs l = l ∨ dropLastIfWs l = l.dropLast := by
  induction l with
  | nil => left; rfl
  | cons c rest ih =>
    cases rest with
    | nil =>
      by_cases h : chunkIsWs c
      · right; simp [dropLastIfWs, h]
      · left; simp [dropLastIfWs, h]
    | cons d rest2 =>
      rcases ih with h | h
      · left; simp [dropLastIfWs, h]
      · right; simp [dropLastIfWs, h]

theorem sumLen_dropLastIfWs_le (l : List (List Char)) :
    sumLen (dropLastIfWs l) ≤ sumLen l := by
  induction l with
  | nil => exact Nat.le_refl _
  | cons c rest ih =>
    cases rest with
    | nil =>
      by_cases h : chunkIsWs c <;> simp [dropLastIfWs, h, sumLen_cons, sumLen_nil]
    | cons d rest2 =>
      simp only [sumLen_cons] at ih
      simp only [dropLastIfWs, sumLen_cons]
      omega

theorem wordChunks_dropLastIfWs (l : List (List Char)) :
    wordChunks (dropLastIfWs l) = wordChunks l := by
  induction l with
  | nil => rfl
  | cons c rest ih =>
    cases rest with
    | nil =>
      by_cases h : chunkIsWs c <;> simp [dropLastIfWs, h, wordChunks, List.filter_cons]
    | cons d rest2 =>
      show wordChunks (c :: dropLastIfWs (d :: rest2)) = _
      simp only [wordChunks, List.filter_cons] at ih ⊢
      by_cases h : chunkIsWs c <;> simp [h, ih]

theorem dropLastIfWs_append_ws (l : List (List Char)) (x : List Char)
    (h : chunkIsWs x = true) : dropLastIfWs (l ++ [x]) = l := by
  induction l with
  | nil => simp [dropLastIfWs, h]
  | cons c rest ih =>
    cases rest with
    | nil => simp [dropLastIfWs, h]
    | cons d rest2 =>
      simp only [List.cons_append] at ih ⊢
      simp only [dropLastIfWs]
      rw [ih]

theorem rfindHyphenAux_lt (l : List Char) : ∀ (i : Nat) (acc : Option Nat),
    (∀ j, acc = some j → j < i) → ∀ j, rfindHyphenAux l i acc = some j → j < i + l.length := by
  induction l with
  | nil =>
    intro i acc h j hj
    have := h j hj
    simpa using this
  | cons c cs ih =>
    intro i acc h j hj
    have h2 : ∀ j2, (if c == '-' then some i else acc) = some j2 → j2 < i + 1 := by
      intro j2 hj2
      by_cases hc : (c == '-') = true
      · rw [if_pos hc] at hj2
        injection hj2 with hj3
        omega
      · rw [if_neg hc] at hj2
        have := h j2 hj2
        omega
    have := ih (i + 1) _ h2 j hj
    simp only [List.length_cons]
    omega

theorem rfindHyphen_lt (d : List Char) (b : Nat) (j : Nat)
    (h : rfindHyphen d b = some j) : j < b := by
  have h1 := rfindHyphenAux_lt (d.take b) 0 none (by intro j2 hj2; simp at hj2) j h
  have h2 : (d.take b).length ≤ b := by
    simp [List.length_take]
  omega

theorem longEnd_le (w k : Nat) (hw : 1 ≤ w) : handleLong.longEnd w k ≤ w := by
  unfold handleLong.longEnd
  rw [if_neg (by omega)]
  omega

theorem hyphenEnd_le_longEnd (w k : Nat) (d : List Char) :
    handleLong.hyphenEnd w k d ≤ handleLong.longEnd w k := by
  unfold handleLong.hyphenEnd
  by_cases h1 : handleLong.longEnd w k < d.length
  · rw [if_pos h1]
    cases hr : rfindHyphen d (handleLong.longEnd w k) with
    | none => exact Nat.le_refl _
    | some i =>
      by_cases h2 : 0 < i ∧ (d.take i).any (fun c => !(c == '-')) = true
      · show (if 0 < i ∧ _ then i + 1 else _) ≤ _
        rw [if_pos h2]
        have := rfindHyphen_lt d _ i hr
        omega
      · show (if 0 < i ∧ _ then i + 1 else _) ≤ _
        rw [if_neg h2]
  · rw [if_neg h1]

theorem hyphenEnd_zero_pos (w : Nat) (d : List Char) :
    1 ≤ handleLong.hyphenEnd w 0 d := by
  have hl : 1 ≤ handleLong.longEnd w 0 := by
    unfold handleLong.longEnd
    by_cases h : w < 1
    · rw [if_pos h]
    · rw [if_neg h]
      omega
  unfold handleLong.hyphenEnd
  by_cases h1 : handleLong.longEnd w 0 < d.length
  · rw [if_pos h1]
    cases hr : rfindHyphen d (handleLong.longEnd w 0) with
    | none => exact hl
    | some i =>
      by_cases h2 : 0 < i ∧ (d.take i).any (fun c => !(c == '-')) = true
      · show 1 ≤ (if 0 < i ∧ _ then i + 1 else _)
        rw [if_pos h2]
        omega
      · show 1 ≤ (if 0 < i ∧ _ then i + 1 else _)
        rw [if_neg h2]
        exact hl
  · rw [if_neg h1]
    exact hl

theorem handleLong_fst_sumLen (w : Nat) (hw : 1 ≤ w) (cur rem : List (List Char))
    (hcur : sumLen cur ≤ w) : sumLen (handleLong w cur rem).1 ≤ w := by
  cases rem with
  | nil => simpa [handleLong]
  | cons d ds =>
    by_cases h : w < d.length
    · have he : handleLong.longEnd w (sumLen cur) = w - sumLen cur := by
        simp [handleLong.longEnd]
        omega
      have hee : handleLong.hyphenEnd w (sumLen cur) d ≤ w - sumLen cur := by
        have := hyphenEnd_le_longEnd w (sumLen cur) d
        omega
      have htake : (d.take (handleLong.hyphenEnd w (sumLen cur) d)).length ≤ w - sumLen cur :=
        le_trans (List.length_take_le _ _) hee
      simp only [handleLong, if_pos h, sumLen_append, sumLen_cons, sumLen_nil]
      omega
    · simpa [handleLong, h]

theorem handleLong_mu_le (w : Nat) (cur rem : List (List Char)) :
    muChunks (handleLong w cur rem).2 ≤ muChunks rem := by
  cases rem with
  | nil => simp [handleLong]
  | cons d ds =>
    by_cases h : w < d.length
    · simp only [handleLong, if_pos h, muChunks, sumLen_cons]
      have : (d.drop (handleLong.hyphenEnd w (sumLen cur) d)).length ≤ d.length := by simp
      simp only [List.length_cons]
      omega
    · simp [handleLong, h, Nat.le_refl]

theorem stepCore_snd_le (w : Nat) (hw : 1 ≤ w) (chunks1 acc : List (List Char)) :
    ∀ l ∈ (stepCore w chunks1 acc).2, l ∈ acc ∨ l.length ≤ w := by
  intro l hl
  have hfits : sumLen (greedyTake w 0 chunks1).1 ≤ w := by
    have := greedyTake_fits w chunks1 0 (Nat.zero_le w)
    omega
  have hsum : sumLen (handleLong w (greedyTake w 0 chunks1).1
      (greedyTake w 0 chunks1).2).1 ≤ w :=
    handleLong_fst_sumLen w hw _ _ hfits
  have hc3 : sumLen (dropLastIfWs (handleLong w (greedyTake w 0 chunks1).1
      (greedyTake w 0 chunks1).2).1) ≤ w :=
    le_trans (sumLen_dropLastIfWs_le _) hsum
  simp only [stepCore] at hl
  by_cases hemp : (dropLastIfWs (handleLong w (greedyTake w 0 chunks1).1
      (greedyTake w 0 chunks1).2).1).isEmpty
  · rw [if_pos hemp] at hl
    exact Or.inl hl
  · rw [if_neg hemp] at hl
    rcases List.mem_cons.mp hl with h | h
    · right
      rw [h, flatten_length_eq_sumLen]
      exact hc3
    · exact Or.inl h

theorem wrapLoop_line_le (w : Nat) (hw : 1 ≤ w) : ∀ (fuel : Nat)
    (chunks acc : List (List Char)), (∀ l ∈ acc, l.length ≤ w) →
    ∀ l ∈ wrapLoop w fuel chunks acc, l.length ≤ w := by
  intro fuel
  induction fuel with
  | zero =>
    intro chunks acc hacc l hl
    simp only [wrapLoop] at hl
    exact hacc l (List.mem_reverse.mp hl)
  | succ fuel ih =>
    intro chunks acc hacc l hl
    cases chunks with
    | nil =>
      simp only [wrapLoop] at hl
      exact hacc l (List.mem_reverse.mp hl)
    | cons c rest =>
      rw [wrapLoop] at hl
      refine ih _ _ ?_ l hl
      intro l2 hl2
      rcases stepCore_snd_le w hw _ acc l2 hl2 with h | h
      · exact hacc l2 h
      · exact h

theorem pyWrap_line_le (w : Nat) (hw : 1 ≤ w) (s : String) :
    ∀ l ∈ pyWrap w s, l.length ≤ w := by
  intro l hl
  simp only [pyWrap, List.mem_map] at hl
  obtain ⟨lc, hlc, rfl⟩ := hl
  show lc.length ≤ w
  simp only [pyWrapL] at hlc
  exact wrapLoop_line_le w hw _ _ [] (by simp) lc hlc

theorem muChunks_append (a b : List (List Char)) :
    muChunks (a ++ b) = muChunks a + muChunks b := by
  simp [muChunks, sumLen_append]
  omega

theorem stepCore_fst_mu_le (w : Nat) (chunks1 acc : List (List Char)) :
    muChunks (stepCore w chunks1 acc).1 ≤ muChunks chunks1 := by
  have h1 : muChunks (stepCore w chunks1 acc).1 ≤
      muChunks (greedyTake w 0 chunks1).2 := handleLong_mu_le w _ _
  have hpart := greedyTake_partition w chunks1 0
  have h2 : muChunks (greedyTake w 0 chunks1).1 + muChunks (greedyTake w 0 chunks1).2 =
      muChunks chunks1 := by
    rw [← muChunks_append, hpart]
  omega

theorem wrapStep_fst_mu_lt (w : Nat) (hw : 1 ≤ w) (c : List Char)
    (rest acc : List (List Char)) :
    muChunks (wrapStep w c rest acc).1 < muChunks (c :: rest) := by
  have hcons : muChunks (c :: rest) = c.length + muChunks rest + 1 := by
    simp [muChunks, sumLen_cons]
    omega
  by_cases hdrop : (chunkIsWs c && !acc.isEmpty) = true
  · have e : wrapStep w c rest acc = stepCore w rest acc := by
      simp [wrapStep, hdrop]
    rw [e]
    have h1 := stepCore_fst_mu_le w rest acc
    omega
  · have e : wrapStep w c rest acc = stepCore w (c :: rest) acc := by
      simp only [wrapStep, hdrop]
      rw [if_neg]
      simp [hdrop]
    rw [e]
    cases htk : (greedyTake w 0 (c :: rest)).1 with
    | nil =>
      obtain ⟨hlong, hsnd⟩ := greedyTake_stuck w c rest htk
      have e3 : (stepCore w (c :: rest) acc).1 =
          c.drop (handleLong.hyphenEnd w 0 c) :: rest := by
        show (handleLong w (greedyTake w 0 (c :: rest)).1 (greedyTake w 0 (c :: rest)).2).2 = _
        rw [htk, hsnd]
        simp [handleLong, hlong, sumLen]
      rw [e3]
      have h1 : 1 ≤ handleLong.hyphenEnd w 0 c := hyphenEnd_zero_pos w c
      have hle : handleLong.hyphenEnd w 0 c ≤ w :=
        le_trans (hyphenEnd_le_longEnd w 0 c) (longEnd_le w 0 hw)
      have hlen : (c.drop (handleLong.hyphenEnd w 0 c)).length =
          c.length - handleLong.hyphenEnd w 0 c := by simp
      simp only [muChunks, sumLen_cons, List.length_cons, hlen] at hcons ⊢
      omega
    | cons t tk2 =>
      have h1 : muChunks (stepCore w (c :: rest) acc).1 ≤
          muChunks (greedyTake w 0 (c :: rest)).2 := handleLong_mu_le w _ _
      have hpart := greedyTake_partition w (c :: rest) 0
      have h2 : muChunks (greedyTake w 0 (c :: rest)).1 +
          muChunks (greedyTake w 0 (c :: rest)).2 = muChunks (c :: rest) := by
        rw [← muChunks_append, hpart]
      have h3 : 1 ≤ muChunks (greedyTake w 0 (c :: rest)).1 := by
        rw [htk]
        simp [muChunks, sumLen_cons]
        omega
      omega

/-! ## Lemmas about word extraction -/

theorem chunkIsWs_reverse (l : List Char) : chunkIsWs l.reverse = chunkIsWs l := by
  simp [chunkIsWs, List.all_eq_true]

theorem noSp_reverse (l : List Char) : noSp l.reverse = noSp l := by
  simp [noSp, List.all_eq_true]

theorem homogChunk_reverse (l : List Char) (h : homogChunk l) : homogChunk l.reverse := by
  rcases h with h | h
  · left; rwa [chunkIsWs_reverse]
  · right; rwa [noSp_reverse]

theorem noSp_not_ws (c : List Char) (hne : c ≠ []) (h : noSp c = true) :
    chunkIsWs c = false := by
  cases c with
  | nil => exact absurd rfl hne
  | cons ch c' =>
    simp [noSp, List.all_cons] at h
    simp [chunkIsWs, List.all_cons, h.1]

theorem homog_singleton (ch : Char) : homogChunk [ch] := by
  by_cases h : ch = ' '
  · left; simp [chunkIsWs, h]
  · right; simp [noSp, h]

theorem homog_head (d0 : Char) (cur' : List Char) (h : homogChunk (d0 :: cur')) :
    chunkIsWs (d0 :: cur') = (d0 == ' ') := by
  rcases h with h | h
  · have hd : d0 = ' ' := by
      simp [chunkIsWs, List.all_cons] at h
      exact h.1
    subst hd
    simp [h]
  · have hd : ¬ (d0 = ' ') := by
      simp [noSp, List.all_cons] at h
      exact h.1
    have : chunkIsWs (d0 :: cur') = false := noSp_not_ws _ (by simp) h
    simp [this, hd]

theorem homog_extend (d0 c : Char) (cur' : List Char) (h : homogChunk (d0 :: cur'))
    (hcl : ((d0 == ' ') == (c == ' ')) = true) : homogChunk (c :: d0 :: cur') := by
  rcases h with h | h
  · left
    have hd : d0 = ' ' := by
      simp [chunkIsWs, List.all_cons] at h
      exact h.1
    have hc : c = ' ' := by
      simp [hd] at hcl
      exact hcl
    simp [chunkIsWs, List.all_cons, hc]
    simpa [chunkIsWs] using h
  · right
    have hd : ¬ (d0 = ' ') := by
      simp [noSp, List.all_cons] at h
      exact h.1
    have hc : ¬ (c = ' ') := by
      simp [hd] at hcl
      exact hcl
    simp [noSp, List.all_cons, hc]
    simpa [noSp] using h

theorem wordsAux_ws_skip (sp : List Char) (h : chunkIsWs sp = true) :
    ∀ t, wordsAux [] (sp ++ t) = wordsAux [] t := by
  induction sp with
  | nil => intro t; rfl
  | cons ch sp' ih =>
    intro t
    simp [chunkIsWs, List.all_cons] at h
    obtain ⟨h1, h2⟩ := h
    show wordsAux [] (ch :: (sp' ++ t)) = _
    simp [wordsAux, h1]
    exact ih (by simpa [chunkIsWs]) t

theorem wordsAux_word_run (c : List Char) (h : noSp c = true) :
    ∀ (cur t : List Char), wordsAux cur (c ++ t) = wordsAux (c.reverse ++ cur) t := by
  induction c with
  | nil => intro cur t; rfl
  | cons ch c' ih =>
    intro cur t
    simp [noSp, List.all_cons] at h
    obtain ⟨h1, h2⟩ := h
    show wordsAux cur (ch :: (c' ++ t)) = _
    have hne : (ch == ' ') = false := by simp [h1]
    simp only [wordsAux, hne]
    rw [ih (by simpa [noSp]) (ch :: cur) t]
    simp

theorem wordsAux_split_at_space (b : List Char) : ∀ (a cur : List Char),
    wordsAux cur (a ++ ' ' :: b) = wordsAux cur a ++ wordsAux [] b := by
  intro a
  induction a with
  | nil =>
    intro cur
    cases cur with
    | nil => rfl
    | cons d cur' => rfl
  | cons ch a' ih =>
    intro cur
    show wordsAux cur (ch :: (a' ++ ' ' :: b)) = wordsAux cur (ch :: a') ++ _
    by_cases h : ch = ' '
    · cases cur with
      | nil => simp [wordsAux, h, ih]
      | cons d cur' => simp [wordsAux, h, ih]
    · simp [wordsAux, h, ih]

theorem chunkIsWs_cons (c : Char) (l : List Char) :
    chunkIsWs (c :: l) = ((c == ' ') && chunkIsWs l) := by
  simp [chunkIsWs]

theorem wordsAux_rev_nil (c : List Char) (hcne : c ≠ []) :
    wordsAux c.reverse [] = [c] := by
  cases hcr : c.reverse with
  | nil =>
    exact absurd (by simpa using congrArg List.reverse hcr) hcne
  | cons x xs =>
    show [(x :: xs).reverse] = [c]
    rw [← hcr, List.reverse_reverse]

theorem wordsAux_rev_space (c : List Char) (hcne : c ≠ []) (X : List Char) :
    wordsAux c.reverse (' ' :: X) = c :: wordsAux [] X := by
  cases hcr : c.reverse with
  | nil =>
    exact absurd (by simpa using congrArg List.reverse hcr) hcne
  | cons x xs =>
    show (x :: xs).reverse :: wordsAux [] X = c :: wordsAux [] X
    rw [← hcr, List.reverse_reverse]

theorem joinWords (l : List (List Char))
    (hmem : ∀ c ∈ l, c ≠ [] ∧ homogChunk c)
    (hch : List.Chain' (fun a b => chunkIsWs a = true ∨ chunkIsWs b = true) l) :
    wordsAux [] l.flatten = wordChunks l := by
  induction l with
  | nil => rfl
  | cons c rest ih =>
    obtain ⟨hcne, hchom⟩ := hmem c (by simp)
    by_cases hws : chunkIsWs c = true
    · have e1 : wordsAux [] ((c :: rest).flatten) = wordsAux [] rest.flatten := by
        rw [List.flatten_cons]
        exact wordsAux_ws_skip c hws _
      rw [e1, ih (fun x hx => hmem x (by simp [hx])) hch.tail]
      simp [wordChunks, List.filter_cons, hws]
    · have hnosp : noSp c = true := by
        rcases hchom with h | h
        · rw [h] at hws
          exact absurd rfl hws
        · exact h
      have e1 : wordsAux [] ((c :: rest).flatten) = wordsAux c.reverse rest.flatten := by
        rw [List.flatten_cons]
        have := wordsAux_word_run c hnosp [] rest.flatten
        simpa using this
      cases rest with
      | nil =>
        rw [e1]
        show wordsAux c.reverse [] = wordChunks [c]
        rw [wordsAux_rev_nil c hcne]
        simp [wordChunks, List.filter_cons, hws]
      | cons d rest' =>
        obtain ⟨hdne, _⟩ := hmem d (by simp)
        have hdws : chunkIsWs d = true := by
          rcases List.chain'_cons.mp hch with ⟨hlink, _⟩
          rcases hlink with h | h
          · exact absurd h hws
          · exact h
        cases d with
        | nil => exact absurd rfl hdne
        | cons dh d' =>
          have hdws2 : dh = ' ' ∧ chunkIsWs d' = true := by
            have h2 := hdws
            rw [chunkIsWs_cons] at h2
            simpa using h2
          obtain ⟨hdh2, hd'⟩ := hdws2
          subst hdh2
          rw [e1]
          have e2 : ((' ' :: d') :: rest').flatten = ' ' :: (d' ++ rest'.flatten) := by simp
          rw [e2, wordsAux_rev_space c hcne, wordsAux_ws_skip d' hd' _]
          have hih := ih (fun x hx => hmem x (by simp [hx])) hch.tail
          rw [e2] at hih
          have hskip : wordsAux [] (' ' :: (d' ++ rest'.flatten)) =
              wordsAux [] rest'.flatten := by
            show wordsAux [] ([' '] ++ (d' ++ rest'.flatten)) = _
            rw [wordsAux_ws_skip [' '] (by simp [chunkIsWs]) _,
              wordsAux_ws_skip d' hd' _]
          rw [hskip] at hih
          have hwc : wordChunks ((' ' :: d') :: rest') = wordChunks rest' := by
            simp [wordChunks, List.filter_cons, hdws, chunkIsWs_cons]
          rw [hwc] at hih
          rw [hih]
          simp [wordChunks, List.filter_cons, hws, hdws, chunkIsWs_cons]

theorem noSp_cons (c : Char) (l : List Char) :
    noSp (c :: l) = (!(c == ' ') && noSp l) := by
  simp [noSp]

theorem wordsAux_chunksAux (cs : List Char) :
    (∀ cur, noSp cur = true → wordsAux cur cs = wordChunks (chunksAux cur cs)) ∧
    (∀ cur, cur ≠ [] → chunkIsWs cur = true →
      wordsAux [] cs = wordChunks (chunksAux cur cs)) := by
  induction cs with
  | nil =>
    constructor
    · intro cur hcur
      cases cur with
      | nil => rfl
      | cons d cur' =>
        show [(d :: cur').reverse] = wordChunks [(d :: cur').reverse]
        have hwc : chunkIsWs (cur'.reverse ++ [d]) = false := by
          rw [← List.reverse_cons, chunkIsWs_reverse]
          exact noSp_not_ws _ (by simp) hcur
        simp [wordChunks, List.filter_cons, hwc]
    · intro cur hne hws
      cases cur with
      | nil => exact absurd rfl hne
      | cons d cur' =>
        show ([] : List (List Char)) = wordChunks [(d :: cur').reverse]
        have hwc : chunkIsWs (cur'.reverse ++ [d]) = true := by
          rw [← List.reverse_cons, chunkIsWs_reverse]
          exact hws
        simp [wordChunks, List.filter_cons, hwc]
  | cons ch cs' ih =>
    obtain ⟨ihP, ihQ⟩ := ih
    constructor
    · intro cur hcur
      cases cur with
      | nil =>
        show wordsAux [] (ch :: cs') = wordChunks (chunksAux [ch] cs')
        by_cases h : ch = ' '
        · subst h
          have e : wordsAux [] (' ' :: cs') = wordsAux [] cs' := by simp [wordsAux]
          rw [e]
          exact ihQ [' '] (by simp) (by simp [chunkIsWs])
        · have e : wordsAux [] (ch :: cs') = wordsAux [ch] cs' := by simp [wordsAux, h]
          rw [e]
          exact ihP [ch] (by rw [noSp_cons]; simp [h, noSp])
      | cons d cur' =>
        have hd : ¬ (d = ' ') := by
          have h2 := hcur
          rw [noSp_cons] at h2
          rcases Bool.and_eq_true_iff.mp h2 with ⟨h3, _⟩
          simpa using h3
        by_cases h : ch = ' '
        · subst h
          have ec : chunksAux (d :: cur') (' ' :: cs') =
              (d :: cur').reverse :: chunksAux [' '] cs' := by
            simp [chunksAux, hd]
          have ew : wordsAux (d :: cur') (' ' :: cs') =
              (d :: cur').reverse :: wordsAux [] cs' := by
            simp [wordsAux]
          have hwc : chunkIsWs (cur'.reverse ++ [d]) = false := by
            rw [← List.reverse_cons, chunkIsWs_reverse]
            exact noSp_not_ws _ (by simp) hcur
          rw [ec, ew,
            show wordChunks ((d :: cur').reverse :: chunksAux [' '] cs') =
              (d :: cur').reverse :: wordChunks (chunksAux [' '] cs') from by
                simp [wordChunks, List.filter_cons, hwc]]
          exact congrArg (List.cons _) (ihQ [' '] (by simp) (by simp [chunkIsWs]))
        · have ec : chunksAux (d :: cur') (ch :: cs') = chunksAux (ch :: d :: cur') cs' := by
            simp [chunksAux, hd, h]
          have ew : wordsAux (d :: cur') (ch :: cs') = wordsAux (ch :: d :: cur') cs' := by
            simp [wordsAux, h]
          rw [ec, ew]
          exact ihP (ch :: d :: cur') (by rw [noSp_cons]; simp [h, hcur])
    · intro cur hne hws
      cases cur with
      | nil => exact absurd rfl hne
      | cons d cur' =>
        have hd : d = ' ' := by
          have h2 := hws
          rw [chunkIsWs_cons] at h2
          rcases Bool.and_eq_true_iff.mp h2 with ⟨h3, _⟩
          simpa using h3
        subst hd
        by_cases h : ch = ' '
        · subst h
          have ec : chunksAux (' ' :: cur') (' ' :: cs') =
              chunksAux (' ' :: ' ' :: cur') cs' := by
            simp [chunksAux]
          have ew : wordsAux [] (' ' :: cs') = wordsAux [] cs' := by simp [wordsAux]
          rw [ew, ec]
          exact ihQ (' ' :: ' ' :: cur') (by simp)
            (by rw [chunkIsWs_cons]; simp [hws])
        · have ec : chunksAux (' ' :: cur') (ch :: cs') =
              (' ' :: cur').reverse :: chunksAux [ch] cs' := by
            simp [chunksAux, h]
          have hwc : chunkIsWs (cur'.reverse ++ [' ']) = true := by
            rw [← List.reverse_cons, chunkIsWs_reverse]
            exact hws
          have ew : wordsAux [] (ch :: cs') = wordsAux [ch] cs' := by simp [wordsAux, h]
          rw [ew, ec,
            show wordChunks ((' ' :: cur').reverse :: chunksAux [ch] cs') =
              wordChunks (chunksAux [ch] cs') from by
                simp [wordChunks, List.filter_cons, hwc]]
          exact ihP [ch] (by rw [noSp_cons]; simp [h, noSp])

theorem words_eq_wordChunks (cs : List Char) :
    wordsAux [] cs = wordChunks (chunksOf cs) :=
  (wordsAux_chunksAux cs).1 [] (by simp [noSp])

theorem chunksAux_wf (cs : List Char) : ∀ (cur : List Char), cur ≠ [] → homogChunk cur →
    (∀ c ∈ chunksAux cur cs, c ≠ [] ∧ homogChunk c) ∧
    List.Chain' (fun a b => chunkIsWs a ≠ chunkIsWs b) (chunksAux cur cs) ∧
    (∀ c cs2, chunksAux cur cs = c :: cs2 → chunkIsWs c = chunkIsWs cur) := by
  induction cs with
  | nil =>
    intro cur hne hhom
    cases cur with
    | nil => exact absurd rfl hne
    | cons d cur' =>
      have e : chunksAux (d :: cur') [] = [(d :: cur').reverse] := rfl
      refine ⟨?_, ?_, ?_⟩
      · intro c hc
        rw [e] at hc
        rcases List.mem_singleton.mp hc with rfl
        exact ⟨by simp, homogChunk_reverse _ hhom⟩
      · rw [e]
        simp
      · intro c cs2 h
        rw [e] at h
        injection h with h1 h2
        subst h1
        rw [chunkIsWs_reverse]
  | cons ch cs' ih =>
    intro cur hne hhom
    cases cur with
    | nil => exact absurd rfl hne
    | cons d cur' =>
      by_cases hcl : ((d == ' ') == (ch == ' ')) = true
      · have e : chunksAux (d :: cur') (ch :: cs') = chunksAux (ch :: d :: cur') cs' := by
          simp [chunksAux, hcl]
        have hhom2 : homogChunk (ch :: d :: cur') := homog_extend d ch cur' hhom hcl
        have hclass : chunkIsWs (ch :: d :: cur') = chunkIsWs (d :: cur') := by
          have hbe : (d == ' ') = (ch == ' ') := by simpa using hcl
          rw [homog_head ch (d :: cur') hhom2, homog_head d cur' hhom, hbe]
        obtain ⟨m, hc, hd⟩ := ih (ch :: d :: cur') (by simp) hhom2
        refine ⟨by rwa [e], by rwa [e], ?_⟩
        intro x xs hx
        rw [e] at hx
        rw [hd x xs hx, hclass]
      · have e : chunksAux (d :: cur') (ch :: cs') =
            (d :: cur').reverse :: chunksAux [ch] cs' := by
          simp [chunksAux, hcl]
        obtain ⟨m, hc2, hd⟩ := ih [ch] (by simp) (homog_singleton ch)
        refine ⟨?_, ?_, ?_⟩
        · intro c hc
          rw [e] at hc
          rcases List.mem_cons.mp hc with rfl | hc
          · exact ⟨by simp, homogChunk_reverse _ hhom⟩
          · exact m c hc
        · rw [e, List.chain'_cons']
          refine ⟨?_, hc2⟩
          intro y hy
          cases hl : chunksAux [ch] cs' with
          | nil =>
            rw [hl] at hy
            simp at hy
          | cons z zs =>
            rw [hl] at hy
            simp at hy
            subst hy
            have hz := hd z zs hl
            rw [hz, chunkIsWs_reverse, homog_head d cur' hhom]
            have e2 : chunkIsWs [ch] = (ch == ' ') := by simp [chunkIsWs]
            rw [e2]
            intro hcontra
            exact hcl (by simp [hcontra])
        · intro x xs hx
          rw [e] at hx
          injection hx with h1 h2
          subst h1
          rw [chunkIsWs_reverse]

theorem chunksOf_wf (cs : List Char) :
    (∀ c ∈ chunksOf cs, c ≠ [] ∧ homogChunk c) ∧
    List.Chain' (fun a b => chunkIsWs a ≠ chunkIsWs b) (chunksOf cs) := by
  cases cs with
  | nil => exact ⟨by simp [chunksOf, chunksAux], by simp [chunksOf, chunksAux]⟩
  | cons ch cs' =>
    have e : chunksOf (ch :: cs') = chunksAux [ch] cs' := rfl
    obtain ⟨m, hc, _⟩ := chunksAux_wf cs' [ch] (by simp) (homog_singleton ch)
    exact ⟨by rwa [e], by rwa [e]⟩

/-! ## Preservation of words through the wrap loop -/

theorem okChunks_of_append (w : Nat) (a b : List (List Char))
    (h : okChunks w (a ++ b)) : okChunks w a ∧ okChunks w b := by
  obtain ⟨hm, hc, hl⟩ := h
  obtain ⟨hca, hcb, _⟩ := List.chain'_append.mp hc
  exact ⟨⟨fun c hx => hm c (by simp [hx]), hca, fun c hx => hl c (by simp [hx])⟩,
         ⟨fun c hx => hm c (by simp [hx]), hcb, fun c hx => hl c (by simp [hx])⟩⟩

theorem mem_dropLastIfWs (l : List (List Char)) (c : List Char)
    (h : c ∈ dropLastIfWs l) : c ∈ l := by
  rcases dropLastIfWs_eq_self_or_dropLast l with e | e
  · rwa [e] at h
  · rw [e] at h
    exact (List.dropLast_subset l) h

theorem chain_dropLastIfWs {R : List Char → List Char → Prop} (l : List (List Char))
    (h : List.Chain' R l) : List.Chain' R (dropLastIfWs l) := by
  rcases dropLastIfWs_eq_self_or_dropLast l with e | e
  · rwa [e]
  · rw [e]
    exact h.prefix (List.dropLast_prefix l)

theorem dropLastIfWs_nil_wordChunks (l : List (List Char))
    (h : dropLastIfWs l = []) : wordChunks l = [] := by
  rw [← wordChunks_dropLastIfWs, h]
  rfl

theorem wAcc_cons (l : List Char) (acc : List (List Char)) :
    wAcc (l :: acc) = wAcc acc ++ wordsAux [] l := by
  simp [wAcc]

theorem emit_words (w : Nat) (tk : List (List Char)) (hok : okChunks w tk)
    (acc : List (List Char)) :
    wAcc (if (dropLastIfWs tk).isEmpty then acc else (dropLastIfWs tk).flatten :: acc) =
      wAcc acc ++ wordChunks tk := by
  by_cases he : (dropLastIfWs tk).isEmpty
  · rw [if_pos he]
    have h0 : wordChunks tk = [] := by
      rw [← wordChunks_dropLastIfWs, List.isEmpty_iff.mp he]
      rfl
    rw [h0, List.append_nil]
  · rw [if_neg he, wAcc_cons]
    congr 1
    rw [joinWords (dropLastIfWs tk)
      (fun c hc => hok.1 c (mem_dropLastIfWs tk c hc))
      ((chain_dropLastIfWs tk hok.2.1).imp (fun a b hab => ?_)),
      wordChunks_dropLastIfWs]
    rcases hx : chunkIsWs a with _ | _
    · right
      cases hy : chunkIsWs b with
      | false => exact absurd (hx.trans hy.symm) hab
      | true => rfl
    · left
      rfl

theorem emit_words_raw (w : Nat) (tk : List (List Char)) (hok : okChunks w tk)
    (acc : List (List Char)) :
    wAcc (if tk.isEmpty then acc else tk.flatten :: acc) = wAcc acc ++ wordChunks tk := by
  by_cases he : tk.isEmpty
  · rw [if_pos he, List.isEmpty_iff.mp he]
    simp [wordChunks]
  · rw [if_neg he, wAcc_cons]
    congr 1
    rw [joinWords tk hok.1 (hok.2.1.imp (fun a b hab => ?_))]
    rcases hx : chunkIsWs a with _ | _
    · right
      cases hy : chunkIsWs b with
      | false => exact absurd (hx.trans hy.symm) hab
      | true => rfl
    · left
      rfl

theorem chunkIsWs_take (d : List Char) (n : Nat) (h : chunkIsWs d = true) :
    chunkIsWs (d.take n) = true := by
  simp only [chunkIsWs, List.all_eq_true] at h ⊢
  exact fun x hx => h x (List.take_subset n d hx)

theorem chunkIsWs_drop (d : List Char) (n : Nat) (h : chunkIsWs d = true) :
    chunkIsWs (d.drop n) = true := by
  simp only [chunkIsWs, List.all_eq_true] at h ⊢
  exact fun x hx => h x (List.drop_subset n d hx)

theorem wordChunks_cons_ws (d : List Char) (ds : List (List Char))
    (h : chunkIsWs d = true) : wordChunks (d :: ds) = wordChunks ds := by
  simp [wordChunks, List.filter_cons, h]

theorem wordChunks_append (a b : List (List Char)) :
    wordChunks (a ++ b) = wordChunks a ++ wordChunks b := by
  simp [wordChunks]

theorem stepCore_preserves (w : Nat) (hw : 1 ≤ w) (chunks1 acc : List (List Char))
    (hok : okChunks w chunks1) :
    okChunks w (stepCore w chunks1 acc).1 ∧
    wAcc (stepCore w chunks1 acc).2 ++ wordChunks (stepCore w chunks1 acc).1 =
      wAcc acc ++ wordChunks chunks1 := by
  have hpart := greedyTake_partition w chunks1 0
  obtain ⟨hoktk, hokrm⟩ := okChunks_of_append w _ _ (by rwa [hpart])
  have hfits : sumLen (greedyTake w 0 chunks1).1 ≤ w := by
    have := greedyTake_fits w chunks1 0 (Nat.zero_le w)
    omega
  have hwcsplit : wordChunks chunks1 =
      wordChunks (greedyTake w 0 chunks1).1 ++ wordChunks (greedyTake w 0 chunks1).2 := by
    rw [← wordChunks_append, hpart]
  cases hrm : (greedyTake w 0 chunks1).2 with
  | nil =>
    have e1 : (stepCore w chunks1 acc).1 = [] := by
      show (handleLong w (greedyTake w 0 chunks1).1 (greedyTake w 0 chunks1).2).2 = []
      rw [hrm]
      rfl
    have e2 : (stepCore w chunks1 acc).2 =
        (if (dropLastIfWs (greedyTake w 0 chunks1).1).isEmpty then acc
         else (dropLastIfWs (greedyTake w 0 chunks1).1).flatten :: acc) := by
      show (if (dropLastIfWs (handleLong w (greedyTake w 0 chunks1).1
            (greedyTake w 0 chunks1).2).1).isEmpty then acc else _) = _
      rw [hrm]
      rfl
    rw [e1, e2, emit_words w _ hoktk acc, hwcsplit, hrm]
    refine ⟨⟨by simp, by simp, by simp⟩, ?_⟩
    simp [wordChunks, List.append_assoc]
  | cons d ds =>
    rw [hrm] at hokrm
    by_cases hlen : w < d.length
    · have hdws : chunkIsWs d = true := by
        cases hx : chunkIsWs d with
        | true => rfl
        | false =>
          have := hokrm.2.2 d (by simp) hx
          omega
      have heLe : handleLong.hyphenEnd w (sumLen (greedyTake w 0 chunks1).1) d ≤ w :=
        le_trans (hyphenEnd_le_longEnd w _ d) (longEnd_le w _ hw)
      have hdropne : d.drop (handleLong.hyphenEnd w (sumLen (greedyTake w 0 chunks1).1) d)
          ≠ [] := by
        have : (d.drop (handleLong.hyphenEnd w (sumLen (greedyTake w 0 chunks1).1) d)).length =
            d.length - handleLong.hyphenEnd w (sumLen (greedyTake w 0 chunks1).1) d := by
          simp
        intro hcon
        rw [hcon] at this
        simp at this
        omega
      have hdropws : chunkIsWs (d.drop (handleLong.hyphenEnd w
          (sumLen (greedyTake w 0 chunks1).1) d)) = true := chunkIsWs_drop d _ hdws
      have e1 : (stepCore w chunks1 acc).1 =
          d.drop (handleLong.hyphenEnd w (sumLen (greedyTake w 0 chunks1).1) d) :: ds := by
        show (handleLong w (greedyTake w 0 chunks1).1 (greedyTake w 0 chunks1).2).2 = _
        rw [hrm]
        simp [handleLong, hlen]
      have e2 : (stepCore w chunks1 acc).2 =
          (if (greedyTake w 0 chunks1).1.isEmpty then acc
           else (greedyTake w 0 chunks1).1.flatten :: acc) := by
        show (if (dropLastIfWs (handleLong w (greedyTake w 0 chunks1).1
              (greedyTake w 0 chunks1).2).1).isEmpty then acc else _) = _
        rw [hrm]
        simp only [handleLong, if_pos hlen]
        rw [dropLastIfWs_append_ws _ _
          (chunkIsWs_take d (handleLong.hyphenEnd w (sumLen (greedyTake w 0 chunks1).1) d)
            hdws)]
      rw [e1, e2, emit_words_raw w _ hoktk acc, hwcsplit, hrm]
      constructor
      · obtain ⟨hm, hc, hl⟩ := hokrm
        refine ⟨?_, ?_, ?_⟩
        · intro c hcm
          rcases List.mem_cons.mp hcm with rfl | hcm
          · exact ⟨hdropne, Or.inl hdropws⟩
          · exact hm c (by simp [hcm])
        · rw [List.chain'_cons'] at hc ⊢
          refine ⟨?_, hc.2⟩
          intro y hy
          have := hc.1 y hy
          rw [hdropws]
          rw [hdws] at this
          exact this
        · intro c hcm hcw
          rcases List.mem_cons.mp hcm with rfl | hcm
          · rw [hdropws] at hcw
            exact absurd hcw (by simp)
          · exact hl c (by simp [hcm]) hcw
      · rw [wordChunks_cons_ws _ ds hdropws, wordChunks_cons_ws d ds hdws,
          List.append_assoc]
    · have e1 : (stepCore w chunks1 acc).1 = d :: ds := by
        show (handleLong w (greedyTake w 0 chunks1).1 (greedyTake w 0 chunks1).2).2 = _
        rw [hrm]
        simp [handleLong, hlen]
      have e2 : (stepCore w chunks1 acc).2 =
          (if (dropLastIfWs (greedyTake w 0 chunks1).1).isEmpty then acc
           else (dropLastIfWs (greedyTake w 0 chunks1).1).flatten :: acc) := by
        show (if (dropLastIfWs (handleLong w (greedyTake w 0 chunks1).1
              (greedyTake w 0 chunks1).2).1).isEmpty then acc else _) = _
        rw [hrm]
        simp [handleLong, hlen]
      rw [e1, e2, emit_words w _ hoktk acc, hwcsplit, hrm]
      exact ⟨hokrm, by rw [List.append_assoc]⟩

theorem okChunks_tail (w : Nat) (c : List Char) (cs : List (List Char))
    (h : okChunks w (c :: cs)) : okChunks w cs :=
  ⟨fun x hx => h.1 x (by simp [hx]), h.2.1.tail, fun x hx => h.2.2 x (by simp [hx])⟩

theorem wrapStep_preserves (w : Nat) (hw : 1 ≤ w) (c : List Char)
    (rest acc : List (List Char)) (hok : okChunks w (c :: rest)) :
    okChunks w (wrapStep w c rest acc).1 ∧
    wAcc (wrapStep w c rest acc).2 ++ wordChunks (wrapStep w c rest acc).1 =
      wAcc acc ++ wordChunks (c :: rest) := by
  by_cases hdrop : (chunkIsWs c && !acc.isEmpty) = true
  · have e : wrapStep w c rest acc = stepCore w rest acc := by
      simp [wrapStep, hdrop]
    rw [e]
    obtain ⟨h1, h2⟩ := stepCore_preserves w hw rest acc (okChunks_tail w c rest hok)
    refine ⟨h1, ?_⟩
    rw [h2]
    have hcws : chunkIsWs c = true := by
      cases hx : chunkIsWs c with
      | true => rfl
      | false =>
        rw [hx] at hdrop
        simp at hdrop
    rw [wordChunks_cons_ws c rest hcws]
  · have e : wrapStep w c rest acc = stepCore w (c :: rest) acc := by
      simp only [wrapStep]
      rw [if_neg]
      simp [hdrop]
    rw [e]
    exact stepCore_preserves w hw (c :: rest) acc hok

theorem wrapLoop_words (w : Nat) (hw : 1 ≤ w) : ∀ (fuel : Nat)
    (chunks acc : List (List Char)), muChunks chunks ≤ fuel → okChunks w chunks →
    ((wrapLoop w fuel chunks acc).map (fun l => wordsAux [] l)).flatten =
      wAcc acc ++ wordChunks chunks := by
  intro fuel
  induction fuel with
  | zero =>
    intro chunks acc hmu hok
    have hnil : chunks = [] := by
      cases chunks with
      | nil => rfl
      | cons c cs =>
        simp [muChunks, sumLen_cons] at hmu
    subst hnil
    show ((acc.reverse).map _).flatten = wAcc acc ++ wordChunks []
    simp [wAcc, wordChunks]
  | succ fuel ih =>
    intro chunks acc hmu hok
    cases chunks with
    | nil =>
      show ((acc.reverse).map _).flatten = wAcc acc ++ wordChunks []
      simp [wAcc, wordChunks]
    | cons c rest =>
      rw [wrapLoop]
      obtain ⟨hok2, hwq⟩ := wrapStep_preserves w hw c rest acc hok
      have hmu2 : muChunks (wrapStep w c rest acc).1 ≤ fuel := by
        have := wrapStep_fst_mu_lt w hw c rest acc
        omega
      rw [ih _ _ hmu2 hok2, hwq]

theorem chunksOf_ok (w : Nat) (cs : List Char)
    (hword : ∀ word ∈ wordsAux [] cs, word.length ≤ w) :
    okChunks w (chunksOf cs) := by
  obtain ⟨hm, hc⟩ := chunksOf_wf cs
  refine ⟨hm, hc, ?_⟩
  intro c hcm hcw
  apply hword
  rw [words_eq_wordChunks]
  simp [wordChunks, List.mem_filter, hcm, hcw]

theorem chunksAux_flatten (cs : List Char) : ∀ (cur : List Char),
    (chunksAux cur cs).flatten = cur.reverse ++ cs := by
  induction cs with
  | nil =>
    intro cur
    cases cur with
    | nil => rfl
    | cons d cur' => simp [chunksAux]
  | cons ch cs' ih =>
    intro cur
    cases cur with
    | nil =>
      show (chunksAux [ch] cs').flatten = [] ++ (ch :: cs')
      rw [ih [ch]]
      simp
    | cons d cur' =>
      by_cases hcl : ((d == ' ') == (ch == ' ')) = true
      · have e : chunksAux (d :: cur') (ch :: cs') = chunksAux (ch :: d :: cur') cs' := by
          simp [chunksAux, hcl]
        rw [e, ih (ch :: d :: cur')]
        simp
      · have e : chunksAux (d :: cur') (ch :: cs') =
            (d :: cur').reverse :: chunksAux [ch] cs' := by
          simp [chunksAux, hcl]
        rw [e, List.flatten_cons, ih [ch]]
        simp

theorem stepCore_chars (P : Char → Prop) (w : Nat) (chunks1 acc : List (List Char))
    (hacc : ∀ l ∈ acc, ∀ ch ∈ l, P ch) (hch : ∀ x ∈ chunks1, ∀ ch ∈ x, P ch) :
    (∀ x ∈ (stepCore w chunks1 acc).1, ∀ ch ∈ x, P ch) ∧
    (∀ l ∈ (stepCore w chunks1 acc).2, ∀ ch ∈ l, P ch) := by
  have hpart := greedyTake_partition w chunks1 0
  have htk : ∀ x ∈ (greedyTake w 0 chunks1).1, ∀ ch ∈ x, P ch := by
    intro x hx
    exact hch x (by rw [← hpart]; exact List.mem_append.mpr (Or.inl hx))
  have hrm : ∀ x ∈ (greedyTake w 0 chunks1).2, ∀ ch ∈ x, P ch := by
    intro x hx
    exact hch x (by rw [← hpart]; exact List.mem_append.mpr (Or.inr hx))
  have hp1 : ∀ x ∈ (handleLong w (greedyTake w 0 chunks1).1 (greedyTake w 0 chunks1).2).1,
      ∀ ch ∈ x, P ch := by
    cases hr : (greedyTake w 0 chunks1).2 with
    | nil =>
      intro x hx
      simp only [handleLong] at hx
      exact htk x hx
    | cons d ds =>
      intro x hx
      have hd : ∀ ch ∈ d, P ch := hrm d (by rw [hr]; simp)
      by_cases hlen : w < d.length
      · simp only [handleLong, if_pos hlen] at hx
        rcases List.mem_append.mp hx with hx | hx
        · exact htk x hx
        · rcases List.mem_singleton.mp hx with rfl
          intro ch hc
          exact hd ch (List.take_subset _ d hc)
      · simp only [handleLong, if_neg hlen] at hx
        exact htk x hx
  constructor
  · intro x hx
    show ∀ ch ∈ x, P ch
    have hx2 : x ∈ (handleLong w (greedyTake w 0 chunks1).1 (greedyTake w 0 chunks1).2).2 := hx
    cases hr : (greedyTake w 0 chunks1).2 with
    | nil =>
      rw [hr] at hx2
      simp [handleLong] at hx2
    | cons d ds =>
      rw [hr] at hx2
      have hd : ∀ ch ∈ d, P ch := hrm d (by rw [hr]; simp)
      by_cases hlen : w < d.length
      · simp only [handleLong, if_pos hlen] at hx2
        rcases List.mem_cons.mp hx2 with rfl | hx2
        · intro ch hc
          exact hd ch (List.drop_subset _ d hc)
        · exact hrm x (by rw [hr]; simp [hx2])
      · simp only [handleLong, if_neg hlen] at hx2
        exact hrm x (by rw [hr]; exact hx2)
  · intro l hl
    have hl2 : l ∈ (if (dropLastIfWs (handleLong w (greedyTake w 0 chunks1).1
        (greedyTake w 0 chunks1).2).1).isEmpty then acc
        else (dropLastIfWs (handleLong w (greedyTake w 0 chunks1).1
          (greedyTake w 0 chunks1).2).1).flatten :: acc) := hl
    by_cases he : (dropLastIfWs (handleLong w (greedyTake w 0 chunks1).1
        (greedyTake w 0 chunks1).2).1).isEmpty
    · rw [if_pos he] at hl2
      exact hacc l hl2
    · rw [if_neg he] at hl2
      rcases List.mem_cons.mp hl2 with rfl | hl2
      · intro ch hc
        obtain ⟨x, hx, hcx⟩ := List.mem_flatten.mp hc
        exact hp1 x (mem_dropLastIfWs _ x hx) ch hcx
      · exact hacc l hl2

theorem wrapStep_chars (P : Char → Prop) (w : Nat) (c : List Char)
    (rest acc : List (List Char))
    (hacc : ∀ l ∈ acc, ∀ ch ∈ l, P ch) (hch : ∀ x ∈ c :: rest, ∀ ch ∈ x, P ch) :
    (∀ x ∈ (wrapStep w c rest acc).1, ∀ ch ∈ x, P ch) ∧
    (∀ l ∈ (wrapStep w c rest acc).2, ∀ ch ∈ l, P ch) := by
  by_cases hdrop : (chunkIsWs c && !acc.isEmpty) = true
  · have e : wrapStep w c rest acc = stepCore w rest acc := by
      simp [wrapStep, hdrop]
    rw [e]
    exact stepCore_chars P w rest acc hacc (fun x hx => hch x (by simp [hx]))
  · have e : wrapStep w c rest acc = stepCore w (c :: rest) acc := by
      simp only [wrapStep]
      rw [if_neg]
      simp [hdrop]
    rw [e]
    exact stepCore_chars P w (c :: rest) acc hacc hch

theorem wrapLoop_chars (P : Char → Prop) (w : Nat) : ∀ (fuel : Nat)
    (chunks acc : List (List Char)),
    (∀ l ∈ acc, ∀ ch ∈ l, P ch) → (∀ x ∈ chunks, ∀ ch ∈ x, P ch) →
    ∀ l ∈ wrapLoop w fuel chunks acc, ∀ ch ∈ l, P ch := by
  intro fuel
  induction fuel with
  | zero =>
    intro chunks acc hacc _ l hl
    simp only [wrapLoop] at hl
    exact hacc l (List.mem_reverse.mp hl)
  | succ fuel ih =>
    intro chunks acc hacc hch l hl
    cases chunks with
    | nil =>
      simp only [wrapLoop] at hl
      exact hacc l (List.mem_reverse.mp hl)
    | cons c rest =>
      rw [wrapLoop] at hl
      obtain ⟨h1, h2⟩ := wrapStep_chars P w c rest acc hacc hch
      exact ih _ _ h2 h1 l hl

/-! ## From the character-list wrap back to strings -/

theorem mungeChar_idem (x : Char) : mungeChar (mungeChar x) = mungeChar x := by
  by_cases h : isPyWs x = true
  · have e : mungeChar x = ' ' := by simp [mungeChar, h]
    rw [e]
    have hsp : isPyWs ' ' = true := rfl
    simp [mungeChar, hsp]
  · have e : mungeChar x = x := by simp [mungeChar, h]
    rw [e, e]

theorem munge_fixed_chars (s : String) : ∀ ch ∈ (munge s).data, mungeChar ch = ch := by
  intro ch hch
  simp only [munge, List.mem_map] at hch
  obtain ⟨x, _, rfl⟩ := hch
  exact mungeChar_idem x

theorem str_append_data (a b : String) : (a ++ b).data = a.data ++ b.data := by
  cases a
  cases b
  rfl

theorem joinNl_data (ls : List (List Char)) :
    (joinNl (ls.map String.mk)).data = nlJoinL ls := by
  induction ls with
  | nil => rfl
  | cons l rest ih =>
    cases rest with
    | nil => rfl
    | cons l2 rest2 =>
      show (String.mk l ++ "\n" ++ joinNl ((l2 :: rest2).map String.mk)).data =
        l ++ '\n' :: nlJoinL (l2 :: rest2)
      rw [str_append_data, str_append_data, ih]
      simp

theorem map_munge_nlJoinL (lines : List (List Char))
    (hfix : ∀ l ∈ lines, ∀ ch ∈ l, mungeChar ch = ch) :
    (nlJoinL lines).map mungeChar = spJoinL lines := by
  induction lines with
  | nil => rfl
  | cons l rest ih =>
    have hl : l.map mungeChar = l := by
      have : l.map mungeChar = l.map id :=
        List.map_congr_left (fun x hx => hfix l (by simp) x hx)
      rw [this, List.map_id]
    cases rest with
    | nil => exact hl
    | cons l2 rest2 =>
      show (l ++ '\n' :: nlJoinL (l2 :: rest2)).map mungeChar =
        l ++ ' ' :: spJoinL (l2 :: rest2)
      rw [List.map_append, hl, List.map_cons]
      have hnl : mungeChar '\n' = ' ' := rfl
      rw [hnl, ih (fun x hx => hfix x (by simp [hx]))]

theorem wordsAux_spJoinL (lines : List (List Char)) :
    wordsAux [] (spJoinL lines) = (lines.map (fun l => wordsAux [] l)).flatten := by
  induction lines with
  | nil => rfl
  | cons l rest ih =>
    cases rest with
    | nil =>
      show wordsAux [] l = wordsAux [] l ++ []
      rw [List.append_nil]
    | cons l2 rest2 =>
      show wordsAux [] (l ++ ' ' :: spJoinL (l2 :: rest2)) = _
      rw [wordsAux_split_at_space, ih]
      rfl

theorem hyLookbehind_false (stack : List Char)
    (h : ∀ a t, stack = a :: t → (a == '-') = false) : hyLookbehind stack = false := by
  cases stack with
  | nil => rfl
  | cons a t =>
    cases t with
    | nil => rfl
    | cons x t2 =>
      cases t2 with
      | nil => rfl
      | cons y t3 =>
        simp only [hyLookbehind]
        rw [h a _ rfl]
        rfl

theorem emAhead_false_of_ne (stack : List Char) (c : Char) (cs : List Char)
    (hc : (c == '-') = false) : emAhead stack (c :: cs) = false := by
  cases cs with
  | nil =>
    unfold emAhead
    simp
  | cons b cs2 =>
    unfold emAhead
    simp [hc]

theorem wordScan_no_hy : ∀ (rest stack tok : List Char),
    '-' ∉ rest → (∀ a t, stack = a :: t → (a == '-') = false) →
    wordScan stack tok rest =
      ((rest.takeWhile (fun x => !(x == ' '))).reverse ++ tok,
       rest.dropWhile (fun x => !(x == ' '))) := by
  intro rest
  induction rest with
  | nil => intro stack tok _ _; rfl
  | cons c cs ih =>
    intro stack tok hno hst
    have hcs : '-' ∉ cs := fun h => hno (List.mem_cons_of_mem _ h)
    have hcc : c ≠ '-' := fun h => hno (by simp [h])
    have hcne : (c == '-') = false := by simp [hcc]
    by_cases hc : (c == ' ') = true
    · simp only [wordScan]
      rw [if_pos hc]
      simp [hc]
    · have hc' : (c == ' ') = false := by
        cases hx : (c == ' ') with
        | false => rfl
        | true => exact absurd hx hc
      have hhb : hyBreak stack tok (c :: cs) = false := by
        simp [hyBreak, hyLookbehind_false stack hst]
      have hem : emAhead stack (c :: cs) = false := emAhead_false_of_ne stack c cs hcne
      simp only [wordScan]
      rw [if_neg (by simp [hc']), if_neg (by simp [hhb]), if_neg (by simp [hem])]
      rw [ih (c :: stack) (c :: tok) hcs
        (by intro a t h; injection h with h1 _; rw [← h1]; exact hcne)]
      simp [hc']

theorem chunksAux_acc (b : Bool) : ∀ (rest cur : List Char), cur ≠ [] →
    (∀ x ∈ cur, (x == ' ') = b) →
    chunksAux cur rest =
      (cur.reverse ++ rest.takeWhile (fun x => (x == ' ') == b)) ::
        chunksAux [] (rest.dropWhile (fun x => (x == ' ') == b)) := by
  intro rest
  induction rest with
  | nil =>
    intro cur hne _
    cases cur with
    | nil => exact absurd rfl hne
    | cons d cur' => simp [chunksAux]
  | cons c cs ih =>
    intro cur hne hall
    cases cur with
    | nil => exact absurd rfl hne
    | cons d cur' =>
      have hd : (d == ' ') = b := hall d (by simp)
      simp only [chunksAux]
      by_cases hc : (c == ' ') = b
      · rw [if_pos (by rw [hd, hc]; simp)]
        rw [ih (c :: d :: cur') (by simp)
          (by intro x hx
              rcases List.mem_cons.mp hx with rfl | hx2
              · exact hc
              · exact hall x hx2)]
        simp [hc, List.append_assoc]
      · have hcf : ((c == ' ') == b) = false := by
          cases hx : (c == ' ') <;> cases b <;> simp_all
        rw [if_neg (by rw [hd]; cases hx : (c == ' ') <;> cases b <;> simp_all)]
        simp [hcf]
        rfl

theorem chunksAux_nil_cons (c : Char) (cs : List Char) :
    chunksAux [] (c :: cs) =
      (c :: cs.takeWhile (fun x => (x == ' ') == (c == ' '))) ::
        chunksAux [] (cs.dropWhile (fun x => (x == ' ') == (c == ' '))) := by
  show chunksAux [c] cs = _
  rw [chunksAux_acc (c == ' ') cs [c] (by simp) (by intro x hx; simp at hx; rw [hx])]
  rfl

theorem headNotHy_append (l st : List Char) (hne : l ≠ []) (hno : '-' ∉ l) :
    ∀ a t, l ++ st = a :: t → (a == '-') = false := by
  intro a t h
  cases l with
  | nil => exact absurd rfl hne
  | cons x xs =>
    rw [List.cons_append] at h
    injection h with h1 _
    subst h1
    have hx : x ≠ '-' := fun he => hno (by simp [he])
    simp [hx]

theorem tokScan_no_hy : ∀ (fuel : Nat) (stack rest : List Char),
    rest.length < fuel → '-' ∉ rest →
    (∀ a t, stack = a :: t → (a == '-') = false) →
    tokScan fuel stack rest = chunksAux [] rest := by
  intro fuel
  induction fuel with
  | zero =>
    intro stack rest hlt _ _
    exact absurd hlt (by omega)
  | succ fuel ih =>
    intro stack rest hlt hno hst
    cases rest with
    | nil => rfl
    | cons c cs =>
      have hcs : '-' ∉ cs := fun h => hno (List.mem_cons_of_mem _ h)
      have hcc : c ≠ '-' := fun h => hno (by simp [h])
      have hcne : (c == '-') = false := by simp [hcc]
      have hlt2 : cs.length < fuel := by
        simp only [List.length_cons] at hlt
        omega
      by_cases hc : (c == ' ') = true
      · simp only [tokScan]
        rw [if_pos hc]
        have hrun : '-' ∉ (c :: cs.takeWhile (fun x => x == ' ')) := by
          intro hmem
          rcases List.mem_cons.mp hmem with rfl | hmem2
          · exact hcc rfl
          · exact hcs ((List.takeWhile_sublist _).subset hmem2)
        rw [ih _ (cs.dropWhile (fun x => x == ' '))
          (Nat.lt_of_le_of_lt (List.dropWhile_sublist _).length_le hlt2)
          (fun h => hcs ((List.dropWhile_sublist _).subset h))
          (headNotHy_append _ stack (by simp) (by
            intro hmem
            exact hrun (List.mem_reverse.mp hmem)))]
        have hp : (fun x : Char => (x == ' ') == (c == ' ')) = (fun x : Char => x == ' ') := by
          funext x
          rw [hc]
          cases hx : (x == ' ') <;> simp
        rw [chunksAux_nil_cons c cs, hp]
      · have hc' : (c == ' ') = false := by
          cases hx : (c == ' ') with
          | false => rfl
          | true => exact absurd hx hc
        have hem : emAhead stack (c :: cs) = false := emAhead_false_of_ne stack c cs hcne
        simp only [tokScan]
        rw [if_neg (by simp [hc']), if_neg (by simp [hem])]
        rw [wordScan_no_hy cs (c :: stack) [c] hcs
          (by intro a t h; injection h with h1 _; rw [← h1]; exact hcne)]
        have hrunw : '-' ∉ ((cs.takeWhile (fun x => !(x == ' '))).reverse ++ [c]) := by
          intro hmem
          rcases List.mem_append.mp hmem with h2 | h2
          · exact hcs ((List.takeWhile_sublist _).subset (List.mem_reverse.mp h2))
          · rcases List.mem_cons.mp h2 with h3 | h3
            · exact hcc h3.symm
            · simp at h3
        rw [ih _ (cs.dropWhile (fun x => !(x == ' ')))
          (Nat.lt_of_le_of_lt (List.dropWhile_sublist _).length_le hlt2)
          (fun h => hcs ((List.dropWhile_sublist _).subset h))
          (headNotHy_append _ stack (by simp) hrunw)]
        have hp : (fun x : Char => (x == ' ') == (c == ' ')) =
            (fun x : Char => !(x == ' ')) := by
          funext x
          rw [hc']
          cases hx : (x == ' ') <;> simp
        rw [chunksAux_nil_cons c cs, hp]
        simp

theorem splitChunks_no_hy (cs : List Char) (hno : '-' ∉ cs) :
    splitChunks cs = chunksOf cs := by
  show tokScan (cs.length + 1) [] cs = chunksAux [] cs
  exact tokScan_no_hy (cs.length + 1) [] cs (by omega) hno (by intro a t h; cases h)

theorem expandTabs_eq_self : ∀ (l : List Char), '\t' ∉ l → ∀ col, expandTabs col l = l := by
  intro l
  induction l with
  | nil => intro _ col; rfl
  | cons c cs ih =>
    intro hno col
    have hc : c ≠ '\t' := fun h => hno (by simp [h])
    have hcs : '\t' ∉ cs := fun h => hno (List.mem_cons_of_mem _ h)
    simp only [expandTabs]
    rw [if_neg (by simp [hc])]
    by_cases hn : (c == '\n' || c == '\r') = true
    · rw [if_pos hn, ih hcs 0]
    · rw [if_neg hn, ih hcs (col + 1)]

theorem mem_expandTabs : ∀ (l : List Char) (col : Nat) (x : Char),
    x ∈ expandTabs col l → x = ' ' ∨ x ∈ l := by
  intro l
  induction l with
  | nil =>
    intro col x hx
    simp [expandTabs] at hx
  | cons c cs ih =>
    intro col x hx
    simp only [expandTabs] at hx
    by_cases ht : (c == '\t') = true
    · rw [if_pos ht] at hx
      rcases List.mem_append.mp hx with h | h
      · exact Or.inl (List.eq_of_mem_replicate h)
      · rcases ih _ x h with h2 | h2
        · exact Or.inl h2
        · exact Or.inr (List.mem_cons_of_mem _ h2)
    · rw [if_neg ht] at hx
      by_cases hn : (c == '\n' || c == '\r') = true
      · rw [if_pos hn] at hx
        rcases List.mem_cons.mp hx with rfl | h
        · exact Or.inr (by simp)
        · rcases ih _ x h with h2 | h2
          · exact Or.inl h2
          · exact Or.inr (List.mem_cons_of_mem _ h2)
      · rw [if_neg hn] at hx
        rcases List.mem_cons.mp hx with rfl | h
        · exact Or.inr (by simp)
        · rcases ih _ x h with h2 | h2
          · exact Or.inl h2
          · exact Or.inr (List.mem_cons_of_mem _ h2)

theorem mem_nlJoinL : ∀ (lines : List (List Char)) (x : Char),
    x ∈ nlJoinL lines → x = '\n' ∨ ∃ l ∈ lines, x ∈ l := by
  intro lines
  induction lines with
  | nil =>
    intro x hx
    simp [nlJoinL] at hx
  | cons l rest ih =>
    intro x hx
    cases rest with
    | nil => exact Or.inr ⟨l, by simp, hx⟩
    | cons l2 rest2 =>
      have hx2 : x ∈ l ++ '\n' :: nlJoinL (l2 :: rest2) := hx
      rcases List.mem_append.mp hx2 with h | h
      · exact Or.inr ⟨l, by simp, h⟩
      · rcases List.mem_cons.mp h with rfl | h2
        · exact Or.inl rfl
        · rcases ih x h2 with h3 | ⟨l3, hl3, hx3⟩
          · exact Or.inl h3
          · exact Or.inr ⟨l3, by simp [hl3], hx3⟩

theorem munge_no_hyphen (s : String) (h : '-' ∉ s.data) : '-' ∉ (munge s).data := by
  intro hmem
  simp only [munge, List.mem_map] at hmem
  obtain ⟨x, hx, hmx⟩ := hmem
  have hx2 : x = ' ' ∨ x ∈ s.data := mem_expandTabs _ 0 x hx
  have hxh : x = '-' := by
    by_cases hw : isPyWs x = true
    · exfalso
      rw [show mungeChar x = ' ' from by simp [mungeChar, hw]] at hmx
      exact absurd hmx (by decide)
    · rw [show mungeChar x = x from by simp [mungeChar, hw]] at hmx
      exact hmx
  subst hxh
  rcases hx2 with h2 | h2
  · exact absurd h2 (by decide)
  · exact h h2

theorem pyWrap_words (w : Nat) (hw : 1 ≤ w) (s : String)
    (hword : ∀ word ∈ wordsOfStr s, word.length ≤ w)
    (hnohy : '-' ∉ s.data) :
    wordsOfStr (joinWrap s w) = wordsOfStr s := by
  have hsc : splitChunks (munge s).data = chunksOf (munge s).data :=
    splitChunks_no_hy _ (munge_no_hyphen s hnohy)
  have hwordL : ∀ word ∈ wordsAux [] (munge s).data, word.length ≤ w := by
    intro word hwd
    have hmem : String.mk word ∈ wordsOfStr s := by
      simp only [wordsOfStr, List.mem_map]
      exact ⟨word, hwd, rfl⟩
    exact hword _ hmem
  have hok : okChunks w (chunksOf (munge s).data) := chunksOf_ok w _ hwordL
  have hmu : muChunks (chunksOf (munge s).data) ≤
      sumLen (chunksOf (munge s).data) + (chunksOf (munge s).data).length + 1 := by
    simp [muChunks]
  have hpwl : pyWrapL w (munge s).data =
      wrapLoop w (sumLen (chunksOf (munge s).data) + (chunksOf (munge s).data).length + 1)
        (chunksOf (munge s).data) [] := by
    simp only [pyWrapL]
    rw [hsc]
  have hloop : ((pyWrapL w (munge s).data).map (fun l => wordsAux [] l)).flatten =
      wAcc [] ++ wordChunks (chunksOf (munge s).data) := by
    rw [hpwl]
    exact wrapLoop_words w hw _ (chunksOf (munge s).data) [] hmu hok
  have hchunkfix : ∀ c ∈ chunksOf (munge s).data, ∀ ch ∈ c, mungeChar ch = ch := by
    intro c hc ch hch
    apply munge_fixed_chars
    have hfl : ch ∈ (chunksOf (munge s).data).flatten := List.mem_flatten.mpr ⟨c, hc, hch⟩
    rw [show (chunksOf (munge s).data).flatten = (munge s).data from by
      show (chunksAux [] (munge s).data).flatten = _
      rw [chunksAux_flatten]
      rfl] at hfl
    exact hfl
  have hlinefix : ∀ l ∈ pyWrapL w (munge s).data, ∀ ch ∈ l, mungeChar ch = ch := by
    intro l hl
    rw [hpwl] at hl
    exact wrapLoop_chars (fun ch => mungeChar ch = ch) w _ _ [] (by simp) hchunkfix l hl
  have htabfree : '\t' ∉ (joinNl (pyWrap w s)).data := by
    rw [show pyWrap w s = (pyWrapL w (munge s).data).map String.mk from rfl, joinNl_data]
    intro hmem
    rcases mem_nlJoinL _ _ hmem with h | ⟨l, hl, hch⟩
    · exact absurd h (by decide)
    · exact absurd (hlinefix l hl _ hch) (by decide)
  show (wordsAux [] (munge (joinNl (pyWrap w s))).data).map String.mk = _
  have e1 : (munge (joinNl (pyWrap w s))).data =
      (nlJoinL (pyWrapL w (munge s).data)).map mungeChar := by
    show ((expandTabs 0 (joinNl (pyWrap w s)).data).map mungeChar) = _
    rw [expandTabs_eq_self _ htabfree 0,
      show pyWrap w s = (pyWrapL w (munge s).data).map String.mk from rfl, joinNl_data]
  rw [e1, map_munge_nlJoinL _ hlinefix, wordsAux_spJoinL, hloop]
  show (wAcc [] ++ wordChunks (chunksOf (munge s).data)).map String.mk = _
  rw [show wAcc [] = [] from rfl, List.nil_append, ← words_eq_wordChunks]
  rfl

/-- Claim C6 (amended): for every standard record whose description is
longer than 60 characters, the Description cell is the greedy 60-wide
wrap of the description joined with newline characters, and every
wrapped line is at most 60 characters; provided every
whitespace-delimited word of the description is at most 60 characters
and the description contains no hyphen, line breaks fall only at word
boundaries — the words of the cell equal the words of the description,
in order, so no such word is split.  Titles are wrapped the same way at
width 40.  (Words longer than the width are split by textwrap's default
`break_long_words`, and words containing a hyphen may be broken after
the hyphen by textwrap's default `break_on_hyphens`; see the
counterexample.) -/
theorem standard_description_wrapped (shorten : String → String)
    (kvs : List (String × Json)) (nm d u : String)
    (ht : isTrending (Json.obj kvs) = false)
    (hn : jLookup kvs "name" = some (.str nm))
    (hd : jLookup kvs "description" = some (.str d))
    (hu : jLookup kvs "url" = some (.str u))
    (hlen : 60 < d.length) :
    processItem shorten (Json.obj kvs) =
      .ok ⟨joinWrap nm 40, joinWrap d 60, shorten u⟩ ∧
    (∀ l ∈ pyWrap 60 d, l.length ≤ 60) ∧
    (∀ l ∈ pyWrap 40 nm, l.length ≤ 40) ∧
    ((∀ word ∈ wordsOfStr d, word.length ≤ 60) → '-' ∉ d.data →
      wordsOfStr (joinWrap d 60) = wordsOfStr d) ∧
    ((∀ word ∈ wordsOfStr nm, word.length ≤ 40) → '-' ∉ nm.data →
      wordsOfStr (joinWrap nm 40) = wordsOfStr nm) :=
  ⟨processItem_standard shorten _ nm d u ht hn hd hu,
   pyWrap_line_le 60 (by omega) d,
   pyWrap_line_le 40 (by omega) nm,
   fun h hh => pyWrap_words 60 (by omega) d h hh,
   fun h hh => pyWrap_words 40 (by omega) nm h hh⟩

/-- Witness for the amended C6: a 69-character hyphen-free description of
short words wraps to lines of at most 60 characters with no word split. -/
theorem standard_description_wrapped_witness :
    60 < exLongDesc.length ∧
    (processItem id exLongDescItem =
      .ok ⟨joinWrap "Long title" 40, joinWrap exLongDesc 60, "http://example.com/long"⟩ ∧
    (∀ l ∈ pyWrap 60 exLongDesc, l.length ≤ 60) ∧
    (∀ l ∈ pyWrap 40 "Long title", l.length ≤ 40) ∧
    ((∀ word ∈ wordsOfStr exLongDesc, word.length ≤ 60) → '-' ∉ exLongDesc.data →
      wordsOfStr (joinWrap exLongDesc 60) = wordsOfStr exLongDesc) ∧
    ((∀ word ∈ wordsOfStr "Long title", word.length ≤ 40) →
        '-' ∉ ("Long title" : String).data →
      wordsOfStr (joinWrap "Long title" 40) = wordsOfStr "Long title")) :=
  ⟨by decide,
   standard_description_wrapped id
     [("name", Json.str "Long title"), ("description", Json.str exLongDesc),
      ("url", Json.str "http://example.com/long")]
     "Long title" exLongDesc "http://example.com/long" rfl rfl rfl rfl (by decide)⟩

/-- Counterexample to C6 as stated: a standard record whose description
is a single 61-character word is wrapped by splitting that word across
two lines (textwrap's default `break_long_words`), so a line break does
not fall at a word boundary; and even when every word fits the width, a
word carrying an internal hyphen is broken after the hyphen (textwrap's
default `break_on_hyphens`). -/
theorem long_word_is_split :
    processItem id exLongWordItem =
      .ok ⟨joinWrap "t" 40, joinWrap exLongWord 60, "u"⟩ ∧
    60 < exLongWord.length ∧
    pyWrap 60 exLongWord = [String.mk (List.replicate 60 'a'), "a"] ∧
    wordsOfStr exLongWord = [exLongWord] ∧
    wordsOfStr (joinWrap exLongWord 60) ≠ wordsOfStr exLongWord ∧
    60 < exHyphenDesc.length ∧
    (∀ word ∈ wordsOfStr exHyphenDesc, word.length ≤ 60) ∧
    pyWrap 60 exHyphenDesc =
      [String.mk (List.replicate 30 'a' ++ (' ' :: List.replicate 25 'b') ++ ['-']),
       String.mk (List.replicate 25 'c')] ∧
    wordsOfStr (joinWrap exHyphenDesc 60) ≠ wordsOfStr exHyphenDesc :=
  ⟨rfl, by decide, by decide, by decide, by decide, by decide, by decide, by decide,
   by decide⟩

end BingNews
